import Mathlib

/-!
# gobrain: a feed-forward network with one hidden layer

Shallow embedding of `src/neuralnetwork/neuralnetwork.go`.

* `float64` values are the elements of a field `α` (exact arithmetic); the library
  function `math.Exp` is the parameter `exp`, and `math.Pow(x, 2)` is `x ^ 2`.
* Go `int` values are `Int`; the result of an arithmetic operation on them is wrapped
  to 64 bits by `wrapInt`.
* Slices are lists, held by value: the rows of the matrices do not alias each other.
* A run-time panic (index out of range, `make` with a negative length) aborts the
  program: every operation returns an `Option`, and `none` is the panic.
* The allocation limit of the run-time and the memory of the machine are not in the
  source and are not modelled: an allocation of non-negative length succeeds. What
  is proved of `New` is stated of the networks it returns.
* A method with receiver `nn *NeuralNetwork` returns the state it leaves together with
  its Go result.
-/

namespace Gobrain

/-! ## Go primitives -/

/-- Result of an `int` operation: 64-bit two's complement wrap-around. -/
def wrapInt (x : Int) : Int := (x + 2 ^ 63) % 2 ^ 64 - 2 ^ 63

/-- Assignment `xs[i] = v`: panics when `i` is out of range. -/
def setIdx {β : Type} (xs : List β) (i : Nat) (v : β) : Option (List β) :=
  if i < xs.length then some (xs.set i v) else none

/-- Index expression `m[i][j]`. -/
def getAt {β : Type} (m : List (List β)) (i j : Nat) : Option β :=
  (m[i]?).bind fun row => row[j]?

/-- Assignment `m[i][j] = v`. -/
def setAt {β : Type} (m : List (List β)) (i j : Nat) (v : β) : Option (List (List β)) :=
  (m[i]?).bind fun row => (setIdx row j v).bind fun row2 => setIdx m i row2

/-- Counting loop `for i := 0; i < n; i++ { body }` over the loop-carried state `s`. -/
def forLoop {σ : Type} (body : Nat → σ → Option σ) : Nat → σ → Option σ
  | 0, s => some s
  | n + 1, s => (forLoop body n s).bind (body n)

/-- Allocation `make([]T, n)` followed by filling with `fill`: panics when `n < 0`.
The run-time also refuses a length above its allocation limit, a constant of the
platform and not of the source; that limit is not modelled, and here every allocation
of non-negative length succeeds. -/
def makeSlice {β : Type} (n : Int) (fill : β) : Option (List β) :=
  if n < 0 then none else some (List.replicate n.toNat fill)

/-! ## The source, function by function -/

/-- Source lines 37-48. -/
structure NeuralNetwork (α : Type) where
  ni : Int
  nh : Int
  no : Int
  regression : Bool
  ai : List α
  ah : List α
  ao : List α
  wi : List (List α)
  wo : List (List α)
  ci : List (List α)
  co : List (List α)

section Source

variable {α : Type} [Field α]

/-- Source lines 9-11; `draw` is the value returned by `rand.Float64()`. -/
def random (a b draw : α) : α := (b - a) * draw + a

/-- Source lines 13-19. -/
def matrix (I J : Int) : Option (List (List α)) :=
  (makeSlice I ([] : List α)).bind fun m =>
    forLoop (fun i m => (makeSlice J (0 : α)).bind fun row => setIdx m i row) I.toNat m

/-- Source lines 21-27. -/
def vector (I : Int) (fill : α) : Option (List α) :=
  (makeSlice I (0 : α)).bind fun v =>
    forLoop (fun i v => setIdx v i fill) I.toNat v

/-- Source lines 29-31. -/
def sigmoid (exp : α → α) (x : α) : α := 1 / (1 + exp (-x))

/-- Source lines 33-35. -/
def dsigmoid (y : α) : α := y * (1 - y)

/-- The loops of source lines 60-64 and 66-70: fill an `I × J` matrix with
`random(-1, 1)`, the loop-carried state being the matrix and the number of draws
made so far; `draws k` is the value of the `k`-th call of `rand.Float64()`. -/
def fillRandom (draws : Nat → α) (I J : Int) (st : List (List α) × Nat) :
    Option (List (List α) × Nat) :=
  forLoop (fun i st =>
    forLoop (fun j st =>
      (setAt st.1 i j (random (-1) 1 (draws st.2))).bind fun m => some (m, st.2 + 1))
      J.toNat st) I.toNat st

/-- Source lines 50-76. -/
def New (draws : Nat → α) (ni nh no : Int) (regression : Bool) :
    Option (NeuralNetwork α) :=
  let ni1 := wrapInt (ni + 1)
  let nh1 := wrapInt (nh + 1)
  (vector ni1 (1 : α)).bind fun ai =>
  (vector nh1 (1 : α)).bind fun ah =>
  (vector no (1 : α)).bind fun ao =>
  (matrix ni1 nh1).bind fun wi0 =>
  (matrix nh1 no).bind fun wo0 =>
  (fillRandom draws ni1 nh1 (wi0, 0)).bind fun r1 =>
  (fillRandom draws nh1 no (wo0, r1.2)).bind fun r2 =>
  (matrix ni1 nh1).bind fun ci =>
  (matrix nh1 no).bind fun co =>
  some ⟨ni1, nh1, no, regression, ai, ah, ao, r1.1, r2.1, ci, co⟩

/-- The inner loops of source lines 89-92 and 97-100: `sum += a[j] * w[j][i]` for
`j` from `0` to `n - 1`, starting from `0.0`. -/
def weightedSum (a : List α) (w : List (List α)) (i : Nat) (n : Nat) : Option α :=
  forLoop (fun j sum =>
    (a[j]?).bind fun x => (getAt w j i).bind fun y => some (sum + x * y)) n 0

/-- Source lines 78-109. -/
def Update (exp : α → α) (nn : NeuralNetwork α) (inputs : List α) :
    Option (NeuralNetwork α × List α) :=
  if (inputs.length : Int) ≠ wrapInt (nn.ni - 1) then some (nn, [])
  else
    (forLoop (fun i ai => (inputs[i]?).bind fun x => setIdx ai i x)
      (wrapInt (nn.ni - 1)).toNat nn.ai).bind fun ai =>
    (forLoop (fun i ah =>
        (weightedSum ai nn.wi i nn.ni.toNat).bind fun sum => setIdx ah i (sigmoid exp sum))
      (wrapInt (nn.nh - 1)).toNat nn.ah).bind fun ah =>
    (forLoop (fun i ao =>
        (weightedSum ah nn.wo i nn.nh.toNat).bind fun sum =>
          if nn.regression then setIdx ao i sum else setIdx ao i (sigmoid exp sum))
      nn.no.toNat nn.ao).bind fun ao =>
    some (⟨nn.ni, nn.nh, nn.no, nn.regression, ai, ah, ao, nn.wi, nn.wo, nn.ci, nn.co⟩, ao)

/-- Source lines 117-124: the output deltas. -/
def outputDeltas (nn : NeuralNetwork α) (targets : List α) : Option (List α) :=
  (vector nn.no (0 : α)).bind fun od =>
    forLoop (fun i od =>
      (targets[i]?).bind fun t => (nn.ao[i]?).bind fun o =>
      (setIdx od i (t - o)).bind fun od1 =>
        if !nn.regression then
          (od1[i]?).bind fun d => setIdx od1 i (dsigmoid o * d)
        else some od1) nn.no.toNat od

/-- Source lines 126-134: the hidden deltas. -/
def hiddenDeltas (nn : NeuralNetwork α) (od : List α) : Option (List α) :=
  (vector nn.nh (0 : α)).bind fun hd =>
    forLoop (fun i hd =>
      (forLoop (fun j e =>
          (od[j]?).bind fun d => (getAt nn.wo i j).bind fun w => some (e + d * w))
        nn.no.toNat 0).bind fun e =>
      (nn.ah[i]?).bind fun h => setIdx hd i (dsigmoid h * e)) nn.nh.toNat hd

/-- The loops of source lines 136-142 and 144-150 share one shape: for `i < I` and
`j < J`, with `change = colDelta[j] * rowAct[i]`, add `lRate*change + mFactor*c[i][j]`
to `w[i][j]`, then store `change` in `c[i][j]`. The state is the pair `(w, c)`. -/
def updateWeights (I J : Nat) (colDelta rowAct : List α) (lRate mFactor : α)
    (wc : List (List α) × List (List α)) : Option (List (List α) × List (List α)) :=
  forLoop (fun i wc =>
    forLoop (fun j wc =>
      (colDelta[j]?).bind fun d => (rowAct[i]?).bind fun a =>
      let change := d * a
      (getAt wc.1 i j).bind fun w => (getAt wc.2 i j).bind fun c =>
      (setAt wc.1 i j (w + lRate * change + mFactor * c)).bind fun w2 =>
      (setAt wc.2 i j change).bind fun c2 => some (w2, c2)) J wc) I wc

/-- Source lines 152-156: the error of one example. -/
def sumSquaredError (targets ao : List α) : Option α :=
  forLoop (fun i e =>
    (targets[i]?).bind fun t => (ao[i]?).bind fun o => some (e + (1 / 2) * (t - o) ^ 2))
    targets.length 0

/-- Source lines 111-159. -/
def BackPropagate (nn : NeuralNetwork α) (targets : List α) (lRate mFactor : α) :
    Option (NeuralNetwork α × α) :=
  if (targets.length : Int) ≠ nn.no then some (nn, 0)
  else
    (outputDeltas nn targets).bind fun od =>
    (hiddenDeltas nn od).bind fun hd =>
    (updateWeights nn.nh.toNat nn.no.toNat od nn.ah lRate mFactor (nn.wo, nn.co)).bind fun r1 =>
    (updateWeights nn.ni.toNat nn.nh.toNat hd nn.ai lRate mFactor (nn.wi, nn.ci)).bind fun r2 =>
    (sumSquaredError targets nn.ao).bind fun e =>
    some (⟨nn.ni, nn.nh, nn.no, nn.regression, nn.ai, nn.ah, nn.ao,
      r2.1, r1.1, r2.2, r1.2⟩, e)

/-- Source lines 166-171: the body of the loop over the patterns; the state is the
network and the error `e` summed so far. -/
def trainStep (exp : α → α) (lRate mFactor : α) (st : NeuralNetwork α × α)
    (p : List (List α)) : Option (NeuralNetwork α × α) :=
  (p[0]?).bind fun p0 => (Update exp st.1 p0).bind fun r1 =>
  (p[1]?).bind fun p1 => (BackPropagate r1.1 p1 lRate mFactor).bind fun r2 =>
  some (r2.1, st.2 + r2.2)

/-- Source lines 161-177. -/
def Train (exp : α → α) (nn : NeuralNetwork α) (patterns : List (List (List α)))
    (iterations : Int) (lRate mFactor : α) : Option (NeuralNetwork α × List α) :=
  (makeSlice iterations (0 : α)).bind fun errors =>
    forLoop (fun i st =>
      (patterns.foldlM (trainStep exp lRate mFactor) (st.1, 0)).bind fun r =>
      (setIdx st.2 i r.2).bind fun errors2 => some (r.1, errors2))
      iterations.toNat (nn, errors)

/-- Source lines 179-183; the second component is the list of printed lines, each
the triple `p[0]`, the result of `Update`, `p[1]`. -/
def Test (exp : α → α) (nn : NeuralNetwork α) (patterns : List (List (List α))) :
    Option (NeuralNetwork α × List (List α × List α × List α)) :=
  patterns.foldlM (fun st p =>
    (p[0]?).bind fun p0 => (Update exp st.1 p0).bind fun r =>
    (p[1]?).bind fun p1 => some (r.1, st.2 ++ [(p0, r.2, p1)])) (nn, [])

end Source

/-! ## Shapes and reachable states -/

/-- Shape consistency: the three sizes are non-negative values of a Go `int`, the
activation slices have the lengths `ni`, `nh`, `no`, the matrices `wi` and `ci` have
`ni` rows of length `nh`, and `wo` and `co` have `nh` rows of length `no`. -/
def WellShaped {α : Type} (nn : NeuralNetwork α) : Prop :=
  (0 ≤ nn.ni ∧ nn.ni < 2 ^ 63) ∧ (0 ≤ nn.nh ∧ nn.nh < 2 ^ 63) ∧
  (0 ≤ nn.no ∧ nn.no < 2 ^ 63) ∧
  nn.ai.length = nn.ni.toNat ∧ nn.ah.length = nn.nh.toNat ∧ nn.ao.length = nn.no.toNat ∧
  nn.wi.map List.length = List.replicate nn.ni.toNat nn.nh.toNat ∧
  nn.wo.map List.length = List.replicate nn.nh.toNat nn.no.toNat ∧
  nn.ci.map List.length = List.replicate nn.ni.toNat nn.nh.toNat ∧
  nn.co.map List.length = List.replicate nn.nh.toNat nn.no.toNat

instance {α : Type} (nn : NeuralNetwork α) : Decidable (WellShaped nn) := by
  unfold WellShaped
  infer_instance

/-- The states a program can hold: a network built by `New` from counts that are
non-negative values of a Go `int`, then any finite sequence of completed calls of
`Update`, `BackPropagate`, `Train` and `Test` with arbitrary arguments. -/
inductive Reachable {α : Type} [Field α] (exp : α → α) : NeuralNetwork α → Prop
  | new (draws : Nat → α) (ni nh no : Int) (regression : Bool) (nn : NeuralNetwork α) :
      0 ≤ ni → ni < 2 ^ 63 → 0 ≤ nh → nh < 2 ^ 63 → 0 ≤ no → no < 2 ^ 63 →
      New draws ni nh no regression = some nn → Reachable exp nn
  | update (nn : NeuralNetwork α) (inputs : List α) (r : NeuralNetwork α × List α) :
      Reachable exp nn → Update exp nn inputs = some r → Reachable exp r.1
  | backPropagate (nn : NeuralNetwork α) (targets : List α) (lRate mFactor : α)
      (r : NeuralNetwork α × α) :
      Reachable exp nn → BackPropagate nn targets lRate mFactor = some r →
      Reachable exp r.1
  | train (nn : NeuralNetwork α) (patterns : List (List (List α))) (iterations : Int)
      (lRate mFactor : α) (r : NeuralNetwork α × List α) :
      Reachable exp nn → Train exp nn patterns iterations lRate mFactor = some r →
      Reachable exp r.1
  | test (nn : NeuralNetwork α) (patterns : List (List (List α)))
      (r : NeuralNetwork α × List (List α × List α × List α)) :
      Reachable exp nn → Test exp nn patterns = some r → Reachable exp r.1

/-- `Steps exp s t`: the state `t` is left by a finite sequence of completed calls of
`Update`, `BackPropagate`, `Train` and `Test`, with arbitrary arguments, started in
the state `s`. -/
inductive Steps {α : Type} [Field α] (exp : α → α) :
    NeuralNetwork α → NeuralNetwork α → Prop
  | refl (s : NeuralNetwork α) : Steps exp s s
  | update (s t : NeuralNetwork α) (inputs : List α) (r : NeuralNetwork α × List α) :
      Steps exp s t → Update exp t inputs = some r → Steps exp s r.1
  | backPropagate (s t : NeuralNetwork α) (targets : List α) (lRate mFactor : α)
      (r : NeuralNetwork α × α) :
      Steps exp s t → BackPropagate t targets lRate mFactor = some r → Steps exp s r.1
  | train (s t : NeuralNetwork α) (patterns : List (List (List α))) (iterations : Int)
      (lRate mFactor : α) (r : NeuralNetwork α × List α) :
      Steps exp s t → Train exp t patterns iterations lRate mFactor = some r →
      Steps exp s r.1
  | test (s t : NeuralNetwork α) (patterns : List (List (List α)))
      (r : NeuralNetwork α × List (List α × List α × List α)) :
      Steps exp s t → Test exp t patterns = some r → Steps exp s r.1

/-! ## The training loop as the specification words it -/

section SpecTrain

variable {α : Type} [Field α]

/-- Spec 4.4, one iteration: for every example in the order given, a forward pass on
its input followed by a backward pass on its target. Returns the state left and the
errors of the examples, in order. -/
def specEpoch (exp : α → α) (lRate mFactor : α) :
    NeuralNetwork α → List (List (List α)) → Option (NeuralNetwork α × List α)
  | nn, [] => some (nn, [])
  | nn, p :: ps =>
    (p[0]?).bind fun input => (p[1]?).bind fun target =>
    (Update exp nn input).bind fun r1 =>
    (BackPropagate r1.1 target lRate mFactor).bind fun r2 =>
    (specEpoch exp lRate mFactor r2.1 ps).bind fun r3 => some (r3.1, r2.2 :: r3.2)

/-- Spec 4.4: `N` iterations, each one starting from the state the one before left;
the value of an iteration is the sum of the errors of its examples. -/
def specTrain (exp : α → α) (lRate mFactor : α) (patterns : List (List (List α))) :
    Nat → NeuralNetwork α → Option (NeuralNetwork α × List α)
  | 0, nn => some (nn, [])
  | k + 1, nn =>
    (specTrain exp lRate mFactor patterns k nn).bind fun r =>
    (specEpoch exp lRate mFactor r.1 patterns).bind fun r2 =>
      some (r2.1, r.2 ++ [r2.2.sum])

end SpecTrain

/-! ## Concrete networks -/

/-- The network `New(2, 2, 1, false)` builds when every draw of the random source is
`0.5`: every weight is `random(-1, 1) = 0`. -/
def exampleNet (α : Type) [Field α] : NeuralNetwork α :=
  ⟨3, 3, 1, false, [1, 1, 1], [1, 1, 1], [1],
    [[0, 0, 0], [0, 0, 0], [0, 0, 0]], [[0], [0], [0]],
    [[0, 0, 0], [0, 0, 0], [0, 0, 0]], [[0], [0], [0]]⟩

/-! ## Loops and index expressions -/

section Loops

variable {β σ : Type}

theorem forLoop_succ (body : Nat → σ → Option σ) (n : Nat) (s : σ) :
    forLoop body (n + 1) s = (forLoop body n s).bind (body n) := rfl

/-- Hoare rule for a completed loop: an invariant that every completed iteration
carries from `i` to `i + 1` goes from the start to the end. -/
theorem forLoop_some_inv (P : Nat → σ → Prop) (body : Nat → σ → Option σ) :
    ∀ (n : Nat) (s t : σ), forLoop body n s = some t → P 0 s →
      (∀ i u v, i < n → P i u → body i u = some v → P (i + 1) v) → P n t := by
  intro n
  induction n with
  | zero =>
    intro s t h h0 _
    simp only [forLoop, Option.some.injEq] at h
    exact h ▸ h0
  | succ k ih =>
    intro s t h h0 hstep
    rw [forLoop_succ] at h
    obtain ⟨u, hu, hb⟩ := Option.bind_eq_some.mp h
    have hk : P k u := ih s u hu h0 (fun i a b hi => hstep i a b (Nat.lt_succ_of_lt hi))
    exact hstep k u t (Nat.lt_succ_self k) hk hb

/-- Total-correctness rule: when every iteration completes under the invariant, the
loop completes and the invariant holds at the end. -/
theorem forLoop_total (P : Nat → σ → Prop) (body : Nat → σ → Option σ) :
    ∀ (n : Nat) (s : σ), P 0 s →
      (∀ i u, i < n → P i u → ∃ v, body i u = some v ∧ P (i + 1) v) →
      ∃ t, forLoop body n s = some t ∧ P n t := by
  intro n
  induction n with
  | zero =>
    intro s h0 _
    exact ⟨s, rfl, h0⟩
  | succ k ih =>
    intro s h0 hstep
    obtain ⟨u, hu, hk⟩ := ih s h0 (fun i a hi => hstep i a (Nat.lt_succ_of_lt hi))
    obtain ⟨v, hv, hv2⟩ := hstep k u (Nat.lt_succ_self k) hk
    exact ⟨v, by rw [forLoop_succ, hu]; exact hv, hv2⟩

/-- Two bodies that agree on the iterations run give the same loop. -/
theorem forLoop_congr (b1 b2 : Nat → σ → Option σ) :
    ∀ (n : Nat) (s : σ), (∀ i u, i < n → b1 i u = b2 i u) →
      forLoop b1 n s = forLoop b2 n s := by
  intro n
  induction n with
  | zero => intro s _; rfl
  | succ k ih =>
    intro s h
    rw [forLoop_succ, forLoop_succ, ih s (fun i u hi => h i u (Nat.lt_succ_of_lt hi))]
    cases forLoop b2 k s with
    | none => rfl
    | some u => exact h k u (Nat.lt_succ_self k)

theorem setIdx_eq_some {xs ys : List β} {i : Nat} {v : β} :
    setIdx xs i v = some ys ↔ i < xs.length ∧ ys = xs.set i v := by
  unfold setIdx
  split
  · simp_all [eq_comm]
  · simp_all

theorem setIdx_of_lt {xs : List β} {i : Nat} (v : β) (h : i < xs.length) :
    setIdx xs i v = some (xs.set i v) := by
  simp [setIdx, h]

/-- What a loop that stores `f i` at index `i` leaves, when it completes. -/
theorem setLoop_some (f : Nat → Option β) :
    ∀ (n : Nat) (xs ys : List β),
      forLoop (fun i zs => (f i).bind fun v => setIdx zs i v) n xs = some ys →
      n ≤ xs.length ∧ ys.length = xs.length ∧ (∀ i, i < n → ys[i]? = f i) ∧
        (∀ i, n ≤ i → ys[i]? = xs[i]?) := by
  intro n xs ys h
  have key := forLoop_some_inv
    (fun k (zs : List β) => k ≤ xs.length ∧ zs.length = xs.length ∧
      (∀ i, i < k → zs[i]? = f i) ∧ (∀ i, k ≤ i → zs[i]? = xs[i]?))
    _ n xs ys h ⟨Nat.zero_le _, rfl, fun i hi => absurd hi (Nat.not_lt_zero i), fun _ _ => rfl⟩
  apply key
  intro i u v _ hP hb
  obtain ⟨_, hlen, hlo, hhi⟩ := hP
  obtain ⟨x, hx, hset⟩ := Option.bind_eq_some.mp hb
  obtain ⟨hi, rfl⟩ := setIdx_eq_some.mp hset
  refine ⟨by omega, by simp [hlen], ?_, ?_⟩
  · intro j hj
    by_cases hji : j = i
    · subst hji
      simp [List.getElem?_set_self hi, hx]
    · rw [List.getElem?_set_ne (Ne.symm hji)]
      exact hlo j (by omega)
  · intro j hj
    rw [List.getElem?_set_ne (by omega)]
    exact hhi j (by omega)

/-- A loop that stores `f i` at index `i` completes when the slice is long enough and
every value is defined. -/
theorem setLoop_total (f : Nat → Option β) (n : Nat) (xs : List β)
    (hn : n ≤ xs.length) (hf : ∀ i, i < n → ∃ v, f i = some v) :
    ∃ ys, forLoop (fun i zs => (f i).bind fun v => setIdx zs i v) n xs = some ys := by
  obtain ⟨t, ht, _⟩ := forLoop_total (fun _ (zs : List β) => zs.length = xs.length)
    (fun i zs => (f i).bind fun v => setIdx zs i v) n xs rfl
    (by
      intro i u hi hu
      obtain ⟨v, hv⟩ := hf i hi
      refine ⟨u.set i v, ?_, by simp [hu]⟩
      simp [hv, setIdx, hu]
      omega)
  exact ⟨t, ht⟩

/-- Running such a loop again on its own result changes nothing. -/
theorem setLoop_idem (f : Nat → Option β) (n : Nat) (xs ys : List β)
    (h : forLoop (fun i zs => (f i).bind fun v => setIdx zs i v) n xs = some ys) :
    forLoop (fun i zs => (f i).bind fun v => setIdx zs i v) n ys = some ys := by
  obtain ⟨hn, hlen, hlo, _⟩ := setLoop_some f n xs ys h
  have hf : ∀ i, i < n → ∃ v, f i = some v := by
    intro i hi
    have h1 := hlo i hi
    have h2 : i < ys.length := by omega
    rw [List.getElem?_eq_getElem h2] at h1
    exact ⟨_, h1.symm⟩
  obtain ⟨zs, hzs⟩ := setLoop_total f n ys (by omega) hf
  obtain ⟨_, _, hlo2, hhi2⟩ := setLoop_some f n ys zs hzs
  have : zs = ys := by
    apply List.ext_getElem?
    intro i
    by_cases hi : i < n
    · rw [hlo2 i hi, hlo i hi]
    · exact hhi2 i (by omega)
  rw [hzs, this]

end Loops

/-! ## Accumulating loops -/

section Sums

variable {α : Type} [Field α]

/-- What a loop `acc += g j` returns when it completes: every term is defined and the
result is the start value plus the sum of the terms. -/
theorem accLoop_some (g : Nat → Option α) :
    ∀ (n : Nat) (a0 s : α),
      forLoop (fun j acc => (g j).bind fun x => some (acc + x)) n a0 = some s →
      (∀ j, j < n → ∃ x, g j = some x) ∧
        s = a0 + ∑ j ∈ Finset.range n, (g j).getD 0 := by
  intro n a0 s h
  have key := forLoop_some_inv
    (fun k (acc : α) => (∀ j, j < k → ∃ x, g j = some x) ∧
      acc = a0 + ∑ j ∈ Finset.range k, (g j).getD 0)
    _ n a0 s h ⟨fun j hj => absurd hj (Nat.not_lt_zero j), by simp⟩
  apply key
  intro i u v _ hP hb
  obtain ⟨hdef, hsum⟩ := hP
  obtain ⟨x, hx, hv⟩ := Option.bind_eq_some.mp hb
  simp only [Option.some.injEq] at hv
  refine ⟨?_, ?_⟩
  · intro j hj
    by_cases hji : j = i
    · exact ⟨x, hji ▸ hx⟩
    · exact hdef j (by omega)
  · rw [Finset.sum_range_succ, hx, ← hv, hsum]
    simp [add_assoc]

theorem accLoop_total (g : Nat → Option α) (n : Nat) (a0 : α)
    (hg : ∀ j, j < n → ∃ x, g j = some x) :
    ∃ s, forLoop (fun j acc => (g j).bind fun x => some (acc + x)) n a0 = some s := by
  obtain ⟨t, ht, _⟩ := forLoop_total (fun _ (_ : α) => True)
    (fun j acc => (g j).bind fun x => some (acc + x)) n a0 trivial
    (by
      intro i u hi _
      obtain ⟨x, hx⟩ := hg i hi
      exact ⟨u + x, by simp [hx], trivial⟩)
  exact ⟨t, ht⟩

/-- The term `a[j] * w[j][i]` of a weighted sum. -/
theorem weightedSum_eq (a : List α) (w : List (List α)) (i n : Nat) :
    weightedSum a w i n =
      forLoop (fun j acc =>
        ((a[j]?).bind fun x => (getAt w j i).bind fun y => some (x * y)).bind
          fun z => some (acc + z)) n 0 := by
  unfold weightedSum
  apply forLoop_congr
  intro j u _
  cases a[j]? <;> cases getAt w j i <;> rfl

theorem weightedSum_some (a : List α) (w : List (List α)) (i n : Nat) (s : α)
    (h : weightedSum a w i n = some s) :
    (∀ j, j < n → (∃ x, a[j]? = some x) ∧ ∃ y, getAt w j i = some y) ∧
      s = ∑ j ∈ Finset.range n, (a[j]?).getD 0 * (getAt w j i).getD 0 := by
  rw [weightedSum_eq] at h
  obtain ⟨hdef, hs⟩ := accLoop_some _ n 0 s h
  have hd : ∀ j, j < n → (∃ x, a[j]? = some x) ∧ ∃ y, getAt w j i = some y := by
    intro j hj
    obtain ⟨z, hz⟩ := hdef j hj
    obtain ⟨x, hx, hz2⟩ := Option.bind_eq_some.mp hz
    obtain ⟨y, hy, _⟩ := Option.bind_eq_some.mp hz2
    exact ⟨⟨x, hx⟩, ⟨y, hy⟩⟩
  refine ⟨hd, ?_⟩
  rw [hs, zero_add]
  apply Finset.sum_congr rfl
  intro j hj
  obtain ⟨⟨x, hx⟩, ⟨y, hy⟩⟩ := hd j (Finset.mem_range.mp hj)
  simp [hx, hy]

theorem weightedSum_total (a : List α) (w : List (List α)) (i n : Nat)
    (h : ∀ j, j < n → (∃ x, a[j]? = some x) ∧ ∃ y, getAt w j i = some y) :
    ∃ s, weightedSum a w i n = some s := by
  rw [weightedSum_eq]
  apply accLoop_total
  intro j hj
  obtain ⟨⟨x, hx⟩, ⟨y, hy⟩⟩ := h j hj
  exact ⟨x * y, by simp [hx, hy]⟩

end Sums

/-! ## The forward pass -/

section Forward

variable {α : Type} [Field α]

theorem Update_of_length_ne (exp : α → α) (nn : NeuralNetwork α) (inputs : List α)
    (h : (inputs.length : Int) ≠ wrapInt (nn.ni - 1)) :
    Update exp nn inputs = some (nn, []) := by
  unfold Update
  rw [if_pos h]

/-- The three loops of a completed `Update` on an input of the right length. -/
theorem Update_of_length_eq (exp : α → α) (nn : NeuralNetwork α) (inputs : List α)
    (h : (inputs.length : Int) = wrapInt (nn.ni - 1)) (r : NeuralNetwork α × List α)
    (hr : Update exp nn inputs = some r) :
    ∃ ai ah ao,
      forLoop (fun i zs => (inputs[i]?).bind fun x => setIdx zs i x)
        (wrapInt (nn.ni - 1)).toNat nn.ai = some ai ∧
      forLoop (fun i zs =>
          ((weightedSum ai nn.wi i nn.ni.toNat).bind fun sum => some (sigmoid exp sum)).bind
            fun v => setIdx zs i v)
        (wrapInt (nn.nh - 1)).toNat nn.ah = some ah ∧
      forLoop (fun i zs =>
          ((weightedSum ah nn.wo i nn.nh.toNat).bind fun sum =>
            some (if nn.regression then sum else sigmoid exp sum)).bind
            fun v => setIdx zs i v)
        nn.no.toNat nn.ao = some ao ∧
      r = (⟨nn.ni, nn.nh, nn.no, nn.regression, ai, ah, ao, nn.wi, nn.wo, nn.ci, nn.co⟩,
        ao) := by
  unfold Update at hr
  rw [if_neg (not_not.mpr h)] at hr
  obtain ⟨ai, hai, hr⟩ := Option.bind_eq_some.mp hr
  obtain ⟨ah, hah, hr⟩ := Option.bind_eq_some.mp hr
  obtain ⟨ao, hao, hr⟩ := Option.bind_eq_some.mp hr
  refine ⟨ai, ah, ao, hai, ?_, ?_, (Option.some.inj hr).symm⟩
  · rw [← hah]
    apply forLoop_congr
    intro i u _
    cases weightedSum ai nn.wi i nn.ni.toNat <;> rfl
  · rw [← hao]
    apply forLoop_congr
    intro i u _
    cases weightedSum ah nn.wo i nn.nh.toNat <;> cases nn.regression <;> rfl

/-- Converse of `Update_of_length_eq`: three completed loops make a completed call. -/
theorem Update_of_loops (exp : α → α) (nn : NeuralNetwork α) (inputs : List α)
    (h : (inputs.length : Int) = wrapInt (nn.ni - 1)) (ai ah ao : List α)
    (hai : forLoop (fun i zs => (inputs[i]?).bind fun x => setIdx zs i x)
        (wrapInt (nn.ni - 1)).toNat nn.ai = some ai)
    (hah : forLoop (fun i zs =>
          ((weightedSum ai nn.wi i nn.ni.toNat).bind fun sum => some (sigmoid exp sum)).bind
            fun v => setIdx zs i v)
        (wrapInt (nn.nh - 1)).toNat nn.ah = some ah)
    (hao : forLoop (fun i zs =>
          ((weightedSum ah nn.wo i nn.nh.toNat).bind fun sum =>
            some (if nn.regression then sum else sigmoid exp sum)).bind
            fun v => setIdx zs i v)
        nn.no.toNat nn.ao = some ao) :
    Update exp nn inputs =
      some (⟨nn.ni, nn.nh, nn.no, nn.regression, ai, ah, ao, nn.wi, nn.wo, nn.ci, nn.co⟩,
        ao) := by
  have hah2 : forLoop (fun i zs =>
        (weightedSum ai nn.wi i nn.ni.toNat).bind fun sum => setIdx zs i (sigmoid exp sum))
      (wrapInt (nn.nh - 1)).toNat nn.ah = some ah := by
    rw [← hah]
    apply forLoop_congr
    intro i u _
    cases weightedSum ai nn.wi i nn.ni.toNat <;> rfl
  have hao2 : forLoop (fun i zs =>
        (weightedSum ah nn.wo i nn.nh.toNat).bind fun sum =>
          if nn.regression then setIdx zs i sum else setIdx zs i (sigmoid exp sum))
      nn.no.toNat nn.ao = some ao := by
    rw [← hao]
    apply forLoop_congr
    intro i u _
    cases weightedSum ah nn.wo i nn.nh.toNat <;> cases nn.regression <;> rfl
  unfold Update
  rw [if_neg (not_not.mpr h), hai, Option.some_bind, hah2, Option.some_bind, hao2,
    Option.some_bind]

/-- A second `Update` with the same input returns what the first returned and leaves
the state the first left. -/
theorem Update_idem (exp : α → α) (nn : NeuralNetwork α) (inputs : List α)
    (r : NeuralNetwork α × List α) (h : Update exp nn inputs = some r) :
    Update exp r.1 inputs = some r := by
  by_cases hlen : (inputs.length : Int) = wrapInt (nn.ni - 1)
  · obtain ⟨ai, ah, ao, hai, hah, hao, rfl⟩ := Update_of_length_eq exp nn inputs hlen r h
    exact Update_of_loops exp
      ⟨nn.ni, nn.nh, nn.no, nn.regression, ai, ah, ao, nn.wi, nn.wo, nn.ci, nn.co⟩
      inputs hlen ai ah ao
      (setLoop_idem _ _ _ _ hai) (setLoop_idem _ _ _ _ hah) (setLoop_idem _ _ _ _ hao)
  · rw [Update_of_length_ne exp nn inputs hlen] at h
    cases h
    exact Update_of_length_ne exp nn inputs hlen

end Forward

/-! ## Matrices -/

section Matrices

variable {β : Type}

theorem wrapInt_of_range (y : Int) (h1 : -2 ^ 63 ≤ y) (h2 : y < 2 ^ 63) :
    wrapInt y = y := by
  unfold wrapInt
  omega

theorem shape_length {w : List (List β)} {I J : Nat}
    (h : w.map List.length = List.replicate I J) : w.length = I := by
  have := congrArg List.length h
  simpa using this

theorem shape_row {w : List (List β)} {I J : Nat}
    (h : w.map List.length = List.replicate I J) {i : Nat} {row : List β}
    (hrow : w[i]? = some row) : row.length = J := by
  have h1 : (w.map List.length)[i]? = some row.length := by
    rw [List.getElem?_map, hrow]; rfl
  rw [h, List.getElem?_replicate] at h1
  split at h1
  · exact (Option.some.inj h1).symm
  · cases h1

/-- In an `I × J` matrix every index expression `w[i][j]` with `i < I`, `j < J` is in
range. -/
theorem getAt_of_shape {w : List (List β)} {I J : Nat}
    (h : w.map List.length = List.replicate I J) {i j : Nat} (hi : i < I) (hj : j < J) :
    ∃ y, getAt w i j = some y := by
  have hlen : i < w.length := by rw [shape_length h]; exact hi
  have hrow : w[i]? = some w[i] := List.getElem?_eq_getElem hlen
  have hJ : (w[i]).length = J := shape_row h hrow
  refine ⟨(w[i])[j], ?_⟩
  unfold getAt
  rw [hrow, Option.some_bind]
  exact List.getElem?_eq_getElem (by omega)

theorem setAt_eq_some {m m2 : List (List β)} {i j : Nat} {v : β}
    (h : setAt m i j v = some m2) :
    ∃ row, m[i]? = some row ∧ j < row.length ∧ m2 = m.set i (row.set j v) := by
  unfold setAt at h
  obtain ⟨row, hrow, h⟩ := Option.bind_eq_some.mp h
  obtain ⟨row2, hrow2, h⟩ := Option.bind_eq_some.mp h
  obtain ⟨hj, rfl⟩ := setIdx_eq_some.mp hrow2
  obtain ⟨_, rfl⟩ := setIdx_eq_some.mp h
  exact ⟨row, hrow, hj, rfl⟩

/-- An assignment `m[i][j] = v` keeps the shape. -/
theorem setAt_shape {m m2 : List (List β)} {i j : Nat} {v : β}
    (h : setAt m i j v = some m2) : m2.map List.length = m.map List.length := by
  obtain ⟨row, hrow, _, rfl⟩ := setAt_eq_some h
  apply List.ext_getElem?
  intro k
  by_cases hk : i = k
  · subst hk
    have hi : i < m.length := by
      obtain ⟨hi, _⟩ := List.getElem?_eq_some_iff.mp hrow
      exact hi
    rw [List.getElem?_map, List.getElem?_map, List.getElem?_set_self hi, hrow]
    simp
  · rw [List.getElem?_map, List.getElem?_map, List.getElem?_set_ne hk]

/-- Reading after an assignment `m[i][j] = v`. -/
theorem getAt_setAt {m m2 : List (List β)} {i j : Nat} {v : β}
    (h : setAt m i j v = some m2) (a b : Nat) :
    getAt m2 a b = if a = i ∧ b = j then some v else getAt m a b := by
  obtain ⟨row, hrow, hj, rfl⟩ := setAt_eq_some h
  have hi : i < m.length := by
    obtain ⟨hi, _⟩ := List.getElem?_eq_some_iff.mp hrow
    exact hi
  unfold getAt
  by_cases ha : a = i
  · subst ha
    rw [List.getElem?_set_self hi, Option.some_bind, hrow, Option.some_bind]
    by_cases hb : b = j
    · subst hb
      simp [List.getElem?_set_self hj]
    · rw [List.getElem?_set_ne (Ne.symm hb)]
      simp [hb]
  · rw [List.getElem?_set_ne (Ne.symm ha)]
    simp [ha]

theorem setAt_total {m : List (List β)} {i j : Nat} (v : β) {y : β}
    (h : getAt m i j = some y) : ∃ m2, setAt m i j v = some m2 := by
  unfold getAt at h
  obtain ⟨row, hrow, hy⟩ := Option.bind_eq_some.mp h
  obtain ⟨hj, _⟩ := List.getElem?_eq_some_iff.mp hy
  obtain ⟨hi, _⟩ := List.getElem?_eq_some_iff.mp hrow
  refine ⟨m.set i (row.set j v), ?_⟩
  unfold setAt
  rw [hrow, Option.some_bind, setIdx_of_lt v hj, Option.some_bind, setIdx_of_lt _ hi]

end Matrices

/-! ## The forward pass on shape-consistent states -/

section ForwardShape

variable {α : Type} [Field α]

/-- What a completed `Update` on an input of the right length leaves, slot by slot. -/
theorem Update_spec (exp : α → α) (nn : NeuralNetwork α) (inputs : List α)
    (h : (inputs.length : Int) = wrapInt (nn.ni - 1)) (r : NeuralNetwork α × List α)
    (hr : Update exp nn inputs = some r) :
    r.2 = r.1.ao ∧
    (r.1.ai.length = nn.ai.length ∧ r.1.ah.length = nn.ah.length ∧
      r.1.ao.length = nn.ao.length) ∧
    (∀ i, i < inputs.length → r.1.ai[i]? = inputs[i]?) ∧
    (∀ i, inputs.length ≤ i → r.1.ai[i]? = nn.ai[i]?) ∧
    (∀ i, i < (wrapInt (nn.nh - 1)).toNat → r.1.ah[i]? = some (sigmoid exp
      (∑ j ∈ Finset.range nn.ni.toNat, (r.1.ai[j]?).getD 0 * (getAt nn.wi j i).getD 0))) ∧
    (∀ i, (wrapInt (nn.nh - 1)).toNat ≤ i → r.1.ah[i]? = nn.ah[i]?) ∧
    (∀ i, i < nn.no.toNat → r.1.ao[i]? = some
      (if nn.regression then
        ∑ j ∈ Finset.range nn.nh.toNat, (r.1.ah[j]?).getD 0 * (getAt nn.wo j i).getD 0
      else sigmoid exp
        (∑ j ∈ Finset.range nn.nh.toNat, (r.1.ah[j]?).getD 0 * (getAt nn.wo j i).getD 0))) := by
  obtain ⟨ai, ah, ao, hai, hah, hao, rfl⟩ := Update_of_length_eq exp nn inputs h r hr
  obtain ⟨_, hl1, hlo1, hhi1⟩ := setLoop_some _ _ _ _ hai
  obtain ⟨hn2, hl2, hlo2, hhi2⟩ := setLoop_some _ _ _ _ hah
  obtain ⟨hn3, hl3, hlo3, _⟩ := setLoop_some _ _ _ _ hao
  have hn : (wrapInt (nn.ni - 1)).toNat = inputs.length := by
    rw [← h]; rfl
  rw [hn] at hlo1 hhi1
  refine ⟨rfl, ⟨hl1, hl2, hl3⟩, hlo1, hhi1, ?_, hhi2, ?_⟩
  · intro i hi
    have hlt : i < ah.length := by omega
    have h1 := hlo2 i hi
    rw [List.getElem?_eq_getElem hlt] at h1
    obtain ⟨s, hs, hv⟩ := Option.bind_eq_some.mp h1.symm
    obtain ⟨_, hsum⟩ := weightedSum_some _ _ _ _ _ hs
    show ah[i]? = _
    rw [List.getElem?_eq_getElem hlt, ← Option.some.inj hv, hsum]
  · intro i hi
    have hlt : i < ao.length := by omega
    have h1 := hlo3 i hi
    rw [List.getElem?_eq_getElem hlt] at h1
    obtain ⟨s, hs, hv⟩ := Option.bind_eq_some.mp h1.symm
    obtain ⟨_, hsum⟩ := weightedSum_some _ _ _ _ _ hs
    show ao[i]? = _
    rw [List.getElem?_eq_getElem hlt, ← Option.some.inj hv, hsum]

/-- `Update` keeps every size and both weight and both momentum matrices. -/
theorem Update_frame (exp : α → α) (nn : NeuralNetwork α) (inputs : List α)
    (r : NeuralNetwork α × List α) (hr : Update exp nn inputs = some r) :
    (r.1.ni = nn.ni ∧ r.1.nh = nn.nh ∧ r.1.no = nn.no ∧ r.1.regression = nn.regression) ∧
    r.1.wi = nn.wi ∧ r.1.wo = nn.wo ∧ r.1.ci = nn.ci ∧ r.1.co = nn.co := by
  by_cases hlen : (inputs.length : Int) = wrapInt (nn.ni - 1)
  · obtain ⟨ai, ah, ao, _, _, _, rfl⟩ := Update_of_length_eq exp nn inputs hlen r hr
    exact ⟨⟨rfl, rfl, rfl, rfl⟩, rfl, rfl, rfl, rfl⟩
  · rw [Update_of_length_ne exp nn inputs hlen] at hr
    cases hr
    exact ⟨⟨rfl, rfl, rfl, rfl⟩, rfl, rfl, rfl, rfl⟩

/-- `Update` keeps the length of the three activation slices. -/
theorem Update_lengths (exp : α → α) (nn : NeuralNetwork α) (inputs : List α)
    (r : NeuralNetwork α × List α) (hr : Update exp nn inputs = some r) :
    r.1.ai.length = nn.ai.length ∧ r.1.ah.length = nn.ah.length ∧
      r.1.ao.length = nn.ao.length := by
  by_cases hlen : (inputs.length : Int) = wrapInt (nn.ni - 1)
  · exact (Update_spec exp nn inputs hlen r hr).2.1
  · rw [Update_of_length_ne exp nn inputs hlen] at hr
    cases hr
    exact ⟨rfl, rfl, rfl⟩

theorem Update_wellShaped (exp : α → α) (nn : NeuralNetwork α) (inputs : List α)
    (r : NeuralNetwork α × List α) (hr : Update exp nn inputs = some r)
    (hws : WellShaped nn) : WellShaped r.1 := by
  obtain ⟨⟨e1, e2, e3, _⟩, e4, e5, e6, e7⟩ := Update_frame exp nn inputs r hr
  obtain ⟨l1, l2, l3⟩ := Update_lengths exp nn inputs r hr
  unfold WellShaped at hws ⊢
  rw [e1, e2, e3, e4, e5, e6, e7, l1, l2, l3]
  exact hws

/-- On a shape-consistent state `Update` completes. -/
theorem Update_total (exp : α → α) (nn : NeuralNetwork α) (inputs : List α)
    (hws : WellShaped nn) : ∃ r, Update exp nn inputs = some r := by
  by_cases hlen : (inputs.length : Int) = wrapInt (nn.ni - 1)
  · obtain ⟨⟨hni0, hni1⟩, ⟨hnh0, hnh1⟩, ⟨_, _⟩, hai, hah, hao, hwi, hwo, _, _⟩ := hws
    have hw1 : wrapInt (nn.ni - 1) = nn.ni - 1 := wrapInt_of_range _ (by omega) (by omega)
    have hw2 : wrapInt (nn.nh - 1) = nn.nh - 1 := wrapInt_of_range _ (by omega) (by omega)
    have hn1 : (wrapInt (nn.ni - 1)).toNat = inputs.length := by rw [← hlen]; rfl
    have hlt1 : inputs.length ≤ nn.ai.length := by omega
    obtain ⟨ai, hai2⟩ := setLoop_total (fun i => inputs[i]?) (wrapInt (nn.ni - 1)).toNat nn.ai
      (by omega) (fun i hi => ⟨_, List.getElem?_eq_getElem (show i < inputs.length by omega)⟩)
    obtain ⟨_, hl1, _, _⟩ := setLoop_some _ _ _ _ hai2
    obtain ⟨ah, hah2⟩ := setLoop_total
      (fun i => (weightedSum ai nn.wi i nn.ni.toNat).bind fun sum => some (sigmoid exp sum))
      (wrapInt (nn.nh - 1)).toNat nn.ah (by omega)
      (by
        intro i hi
        obtain ⟨s, hs⟩ := weightedSum_total ai nn.wi i nn.ni.toNat (fun j hj =>
          ⟨⟨_, List.getElem?_eq_getElem (show j < ai.length by omega)⟩,
            getAt_of_shape hwi hj (by omega)⟩)
        exact ⟨sigmoid exp s, by show (weightedSum ai nn.wi i nn.ni.toNat).bind _ = _; rw [hs]; rfl⟩)
    obtain ⟨_, hl2, _, _⟩ := setLoop_some _ _ _ _ hah2
    obtain ⟨ao, hao2⟩ := setLoop_total
      (fun i => (weightedSum ah nn.wo i nn.nh.toNat).bind fun sum =>
        some (if nn.regression then sum else sigmoid exp sum))
      nn.no.toNat nn.ao (by omega)
      (by
        intro i hi
        obtain ⟨s, hs⟩ := weightedSum_total ah nn.wo i nn.nh.toNat (fun j hj =>
          ⟨⟨_, List.getElem?_eq_getElem (show j < ah.length by omega)⟩,
            getAt_of_shape hwo hj hi⟩)
        exact ⟨if nn.regression then s else sigmoid exp s, by
          show (weightedSum ah nn.wo i nn.nh.toNat).bind _ = _; rw [hs]; rfl⟩)
    exact ⟨_, Update_of_loops exp nn inputs hlen ai ah ao hai2 hah2 hao2⟩
  · exact ⟨_, Update_of_length_ne exp nn inputs hlen⟩

end ForwardShape

/-! ## The weight-update loops -/

section WeightUpdate

variable {α : Type} [Field α]

/-- One row of `updateWeights`: the inner loop over `j < J` for a fixed `i`. -/
theorem updateRow_some (i J : Nat) (cd ra : List α) (l m : α)
    (wa ca wb cb : List (List α))
    (h : forLoop (fun j (wc : List (List α) × List (List α)) =>
      (cd[j]?).bind fun d => (ra[i]?).bind fun a =>
      (getAt wc.1 i j).bind fun w => (getAt wc.2 i j).bind fun c =>
      (setAt wc.1 i j (w + l * (d * a) + m * c)).bind fun w2 =>
      (setAt wc.2 i j (d * a)).bind fun c2 => some (w2, c2)) J (wa, ca) = some (wb, cb)) :
    (wb.map List.length = wa.map List.length ∧ cb.map List.length = ca.map List.length) ∧
    (∀ b, b < J → ∃ d a w0 c0, cd[b]? = some d ∧ ra[i]? = some a ∧
      getAt wa i b = some w0 ∧ getAt ca i b = some c0 ∧
      getAt wb i b = some (w0 + l * (d * a) + m * c0) ∧ getAt cb i b = some (d * a)) ∧
    (∀ a b, ¬ (a = i ∧ b < J) →
      getAt wb a b = getAt wa a b ∧ getAt cb a b = getAt ca a b) := by
  have key := forLoop_some_inv
    (fun k (wc : List (List α) × List (List α)) =>
      (wc.1.map List.length = wa.map List.length ∧
        wc.2.map List.length = ca.map List.length) ∧
      (∀ b, b < k → ∃ d a w0 c0, cd[b]? = some d ∧ ra[i]? = some a ∧
        getAt wa i b = some w0 ∧ getAt ca i b = some c0 ∧
        getAt wc.1 i b = some (w0 + l * (d * a) + m * c0) ∧
        getAt wc.2 i b = some (d * a)) ∧
      (∀ a b, ¬ (a = i ∧ b < k) →
        getAt wc.1 a b = getAt wa a b ∧ getAt wc.2 a b = getAt ca a b))
    _ J (wa, ca) (wb, cb) h
    ⟨⟨rfl, rfl⟩, fun b hb => absurd hb (Nat.not_lt_zero b), fun _ _ _ => ⟨rfl, rfl⟩⟩
  apply key
  intro k u v _ hP hb
  obtain ⟨⟨hs1, hs2⟩, hdone, hframe⟩ := hP
  obtain ⟨d, hd, hb⟩ := Option.bind_eq_some.mp hb
  obtain ⟨a, ha, hb⟩ := Option.bind_eq_some.mp hb
  obtain ⟨w0, hw0, hb⟩ := Option.bind_eq_some.mp hb
  obtain ⟨c0, hc0, hb⟩ := Option.bind_eq_some.mp hb
  obtain ⟨w2, hw2, hb⟩ := Option.bind_eq_some.mp hb
  obtain ⟨c2, hc2, hb⟩ := Option.bind_eq_some.mp hb
  cases Option.some.inj hb
  have hfk := hframe i k (by omega)
  refine ⟨⟨by rw [setAt_shape hw2, hs1], by rw [setAt_shape hc2, hs2]⟩, ?_, ?_⟩
  · intro b hb
    by_cases hbk : b = k
    · subst hbk
      refine ⟨d, a, w0, c0, hd, ha, hfk.1 ▸ hw0, hfk.2 ▸ hc0, ?_, ?_⟩
      · show getAt w2 i b = _
        rw [getAt_setAt hw2]; simp
      · show getAt c2 i b = _
        rw [getAt_setAt hc2]; simp
    · obtain ⟨d1, a1, w1, c1, e1, e2, e3, e4, e5, e6⟩ := hdone b (by omega)
      refine ⟨d1, a1, w1, c1, e1, e2, e3, e4, ?_, ?_⟩
      · show getAt w2 i b = _
        rw [getAt_setAt hw2, if_neg (by omega), e5]
      · show getAt c2 i b = _
        rw [getAt_setAt hc2, if_neg (by omega), e6]
  · intro x y hxy
    have hne : ¬ (x = i ∧ y = k) := by omega
    have := hframe x y (by omega)
    refine ⟨?_, ?_⟩
    · show getAt w2 x y = _
      rw [getAt_setAt hw2, if_neg hne, this.1]
    · show getAt c2 x y = _
      rw [getAt_setAt hc2, if_neg hne, this.2]

/-- What a completed `updateWeights` leaves: the shapes are kept, every cell
`i < I`, `j < J` of `w` has received `lRate*change + mFactor*c[i][j]` and the same cell of
`c` holds `change = colDelta[j] * rowAct[i]`; every other cell is as before. -/
theorem updateWeights_some (I J : Nat) (cd ra : List α) (l m : α)
    (w c w2 c2 : List (List α))
    (h : updateWeights I J cd ra l m (w, c) = some (w2, c2)) :
    (w2.map List.length = w.map List.length ∧ c2.map List.length = c.map List.length) ∧
    (∀ i j, i < I → j < J → ∃ d a w0 c0, cd[j]? = some d ∧ ra[i]? = some a ∧
      getAt w i j = some w0 ∧ getAt c i j = some c0 ∧
      getAt w2 i j = some (w0 + l * (d * a) + m * c0) ∧ getAt c2 i j = some (d * a)) ∧
    (∀ i j, ¬ (i < I ∧ j < J) →
      getAt w2 i j = getAt w i j ∧ getAt c2 i j = getAt c i j) := by
  unfold updateWeights at h
  have key := forLoop_some_inv
    (fun k (wc : List (List α) × List (List α)) =>
      (wc.1.map List.length = w.map List.length ∧
        wc.2.map List.length = c.map List.length) ∧
      (∀ i j, i < k → j < J → ∃ d a w0 c0, cd[j]? = some d ∧ ra[i]? = some a ∧
        getAt w i j = some w0 ∧ getAt c i j = some c0 ∧
        getAt wc.1 i j = some (w0 + l * (d * a) + m * c0) ∧
        getAt wc.2 i j = some (d * a)) ∧
      (∀ i j, ¬ (i < k ∧ j < J) →
        getAt wc.1 i j = getAt w i j ∧ getAt wc.2 i j = getAt c i j))
    _ I (w, c) (w2, c2) h
    ⟨⟨rfl, rfl⟩, fun i _ hi => absurd hi (Nat.not_lt_zero i), fun _ _ _ => ⟨rfl, rfl⟩⟩
  apply key
  intro k u v _ hP hb
  obtain ⟨⟨hs1, hs2⟩, hdone, hframe⟩ := hP
  obtain ⟨⟨hr1, hr2⟩, hrow, hrest⟩ := updateRow_some k J cd ra l m u.1 u.2 v.1 v.2 hb
  refine ⟨⟨by rw [hr1, hs1], by rw [hr2, hs2]⟩, ?_, ?_⟩
  · intro i j hi hj
    by_cases hik : i = k
    · subst hik
      obtain ⟨d, a, w0, c0, e1, e2, e3, e4, e5, e6⟩ := hrow j hj
      have hf := hframe i j (by omega)
      exact ⟨d, a, w0, c0, e1, e2, hf.1 ▸ e3, hf.2 ▸ e4, e5, e6⟩
    · obtain ⟨d, a, w0, c0, e1, e2, e3, e4, e5, e6⟩ := hdone i j (by omega) hj
      have hf := hrest i j (by omega)
      exact ⟨d, a, w0, c0, e1, e2, e3, e4, by rw [hf.1, e5], by rw [hf.2, e6]⟩
  · intro i j hij
    have hf := hrest i j (by omega)
    have hg := hframe i j (by omega)
    exact ⟨by rw [hf.1, hg.1], by rw [hf.2, hg.2]⟩

/-- On matrices of `I` rows of length `J`, with `J` column deltas and `I` row
activations, `updateWeights` completes. -/
theorem updateWeights_total (I J : Nat) (cd ra : List α) (l m : α)
    (w c : List (List α)) (hcd : J ≤ cd.length) (hra : I ≤ ra.length)
    (hw : w.map List.length = List.replicate I J)
    (hc : c.map List.length = List.replicate I J) :
    ∃ r, updateWeights I J cd ra l m (w, c) = some r := by
  unfold updateWeights
  obtain ⟨t, ht, _⟩ := forLoop_total
    (fun _ (wc : List (List α) × List (List α)) =>
      wc.1.map List.length = List.replicate I J ∧ wc.2.map List.length = List.replicate I J)
    _ I (w, c) ⟨hw, hc⟩
    (by
      intro i u hi hu
      exact forLoop_total
        (fun _ (wc : List (List α) × List (List α)) =>
          wc.1.map List.length = List.replicate I J ∧
            wc.2.map List.length = List.replicate I J)
        (fun j (wc : List (List α) × List (List α)) =>
          (cd[j]?).bind fun d => (ra[i]?).bind fun a =>
          (getAt wc.1 i j).bind fun w => (getAt wc.2 i j).bind fun c =>
          (setAt wc.1 i j (w + l * (d * a) + m * c)).bind fun w2 =>
          (setAt wc.2 i j (d * a)).bind fun c2 => some (w2, c2)) J u hu
        (by
          intro j x hj hx
          obtain ⟨w0, hw0⟩ := getAt_of_shape hx.1 hi hj
          obtain ⟨c0, hc0⟩ := getAt_of_shape hx.2 hi hj
          obtain ⟨w2, hw2⟩ := setAt_total (w0 + l * (cd[j] * ra[i]) + m * c0) hw0
          obtain ⟨c2, hc2⟩ := setAt_total (cd[j] * ra[i]) hc0
          refine ⟨(w2, c2), ?_, by rw [setAt_shape hw2]; exact hx.1,
            by rw [setAt_shape hc2]; exact hx.2⟩
          have e1 : cd[j]? = some cd[j] := List.getElem?_eq_getElem (by omega)
          have e2 : ra[i]? = some ra[i] := List.getElem?_eq_getElem (by omega)
          simp only [e1, e2, Option.some_bind, hw0, hc0, hw2, hc2]))
  exact ⟨t, ht⟩

end WeightUpdate

/-! ## The deltas and the error of one example -/

section Deltas

variable {α : Type} [Field α]

theorem vector_some (I : Int) (fill : α) (v : List α) (h : vector I fill = some v) :
    0 ≤ I ∧ v = List.replicate I.toNat fill := by
  unfold vector makeSlice at h
  by_cases hI : I < 0
  · rw [if_pos hI] at h
    cases h
  · rw [if_neg hI, Option.some_bind] at h
    refine ⟨by omega, ?_⟩
    obtain ⟨_, hlen, hlo, _⟩ := setLoop_some (fun _ => some fill) I.toNat _ v h
    rw [List.length_replicate] at hlen
    apply List.ext_getElem?
    intro i
    rw [List.getElem?_replicate]
    split
    · rename_i hi
      exact hlo i hi
    · exact List.getElem?_eq_none (by omega)

theorem vector_total (I : Int) (fill : α) (hI : 0 ≤ I) :
    vector I fill = some (List.replicate I.toNat fill) := by
  have hex : ∃ v, vector I fill = some v := by
    unfold vector makeSlice
    rw [if_neg (by omega), Option.some_bind]
    exact setLoop_total (fun _ => some fill) I.toNat _ (by simp) (fun _ _ => ⟨fill, rfl⟩)
  obtain ⟨v, hv⟩ := hex
  rw [hv, (vector_some I fill v hv).2]

/-- The body of the loop of source lines 118-124 stores one value at index `i`. -/
theorem outputDeltas_body (nn : NeuralNetwork α) (targets : List α) (i : Nat)
    (od : List α) :
    ((targets[i]?).bind fun t => (nn.ao[i]?).bind fun o =>
      (setIdx od i (t - o)).bind fun od1 =>
        if !nn.regression then
          (od1[i]?).bind fun d => setIdx od1 i (dsigmoid o * d)
        else some od1) =
    ((targets[i]?).bind fun t => (nn.ao[i]?).bind fun o =>
      some (if nn.regression then t - o else dsigmoid o * (t - o))).bind
      fun v => setIdx od i v := by
  cases targets[i]? with
  | none => rfl
  | some t =>
    cases nn.ao[i]? with
    | none => rfl
    | some o =>
      simp only [Option.some_bind]
      by_cases hi : i < od.length
      · cases nn.regression <;>
          simp [setIdx, hi, List.getElem?_set_self hi]
      · cases nn.regression <;> simp [setIdx, hi]

/-- The output deltas of a completed computation: `target - output`, times
`dsigmoid output` when the network is not a regression. -/
theorem outputDeltas_some (nn : NeuralNetwork α) (targets od : List α)
    (h : outputDeltas nn targets = some od) :
    0 ≤ nn.no ∧ od.length = nn.no.toNat ∧
    ∀ i, i < nn.no.toNat → ∃ t o, targets[i]? = some t ∧ nn.ao[i]? = some o ∧
      od[i]? = some (if nn.regression then t - o else dsigmoid o * (t - o)) := by
  unfold outputDeltas at h
  obtain ⟨v, hv, h⟩ := Option.bind_eq_some.mp h
  obtain ⟨hno, rfl⟩ := vector_some _ _ _ hv
  rw [forLoop_congr _ _ _ _ (fun i u _ => outputDeltas_body nn targets i u)] at h
  obtain ⟨_, hlen, hlo, _⟩ := setLoop_some _ _ _ _ h
  rw [List.length_replicate] at hlen
  refine ⟨hno, hlen, ?_⟩
  intro i hi
  have h1 := hlo i hi
  rw [List.getElem?_eq_getElem (show i < od.length by omega)] at h1
  obtain ⟨t, ht, h2⟩ := Option.bind_eq_some.mp h1.symm
  obtain ⟨o, ho, h3⟩ := Option.bind_eq_some.mp h2
  refine ⟨t, o, ht, ho, ?_⟩
  rw [List.getElem?_eq_getElem (show i < od.length by omega), ← Option.some.inj h3]

theorem outputDeltas_total (nn : NeuralNetwork α) (targets : List α) (hno : 0 ≤ nn.no)
    (ht : nn.no.toNat ≤ targets.length) (hao : nn.no.toNat ≤ nn.ao.length) :
    ∃ od, outputDeltas nn targets = some od := by
  unfold outputDeltas
  rw [vector_total _ _ hno, Option.some_bind,
    forLoop_congr _ _ _ _ (fun i u _ => outputDeltas_body nn targets i u)]
  apply setLoop_total _ _ _ (by simp)
  intro i hi
  have e1 : targets[i]? = some targets[i] := List.getElem?_eq_getElem (by omega)
  have e2 : nn.ao[i]? = some nn.ao[i] := List.getElem?_eq_getElem (by omega)
  exact ⟨_, by rw [e1, e2]; rfl⟩

/-- The hidden deltas of a completed computation:
`dsigmoid(ah[i]) * Σ_j od[j] * wo[i][j]`, from the matrix `wo` of the state given. -/
theorem hiddenDeltas_some (nn : NeuralNetwork α) (od hd : List α)
    (h : hiddenDeltas nn od = some hd) :
    0 ≤ nn.nh ∧ hd.length = nn.nh.toNat ∧
    ∀ i, i < nn.nh.toNat → ∃ a, nn.ah[i]? = some a ∧
      hd[i]? = some (dsigmoid a *
        ∑ j ∈ Finset.range nn.no.toNat, (od[j]?).getD 0 * (getAt nn.wo i j).getD 0) := by
  unfold hiddenDeltas at h
  obtain ⟨v, hv, h⟩ := Option.bind_eq_some.mp h
  obtain ⟨hnh, rfl⟩ := vector_some _ _ _ hv
  have hbody : ∀ i (u : List α), i < nn.nh.toNat →
      ((forLoop (fun j e =>
          (od[j]?).bind fun d => (getAt nn.wo i j).bind fun w => some (e + d * w))
        nn.no.toNat 0).bind fun e =>
        (nn.ah[i]?).bind fun a => setIdx u i (dsigmoid a * e)) =
      ((forLoop (fun j e =>
          ((od[j]?).bind fun d => (getAt nn.wo i j).bind fun w => some (d * w)).bind
            fun z => some (e + z))
        nn.no.toNat 0).bind fun e =>
        (nn.ah[i]?).bind fun a => some (dsigmoid a * e)).bind fun x => setIdx u i x := by
    intro i u _
    have e1 : forLoop (fun j e =>
          (od[j]?).bind fun d => (getAt nn.wo i j).bind fun w => some (e + d * w))
        nn.no.toNat 0 = forLoop (fun j e =>
          ((od[j]?).bind fun d => (getAt nn.wo i j).bind fun w => some (d * w)).bind
            fun z => some (e + z)) nn.no.toNat 0 := by
      apply forLoop_congr
      intro j x _
      cases od[j]? <;> cases getAt nn.wo i j <;> rfl
    rw [e1]
    cases forLoop (fun j e =>
          ((od[j]?).bind fun d => (getAt nn.wo i j).bind fun w => some (d * w)).bind
            fun z => some (e + z)) nn.no.toNat 0 with
    | none => rfl
    | some e => cases nn.ah[i]? <;> rfl
  rw [forLoop_congr _ _ _ _ hbody] at h
  obtain ⟨_, hlen, hlo, _⟩ := setLoop_some _ _ _ _ h
  rw [List.length_replicate] at hlen
  refine ⟨hnh, hlen, ?_⟩
  intro i hi
  have h1 := hlo i hi
  rw [List.getElem?_eq_getElem (show i < hd.length by omega)] at h1
  obtain ⟨e, he, h2⟩ := Option.bind_eq_some.mp h1.symm
  obtain ⟨a, ha, h3⟩ := Option.bind_eq_some.mp h2
  obtain ⟨hdef, hsum⟩ := accLoop_some _ _ _ _ he
  refine ⟨a, ha, ?_⟩
  rw [List.getElem?_eq_getElem (show i < hd.length by omega), ← Option.some.inj h3,
    hsum, zero_add]
  congr 2
  apply Finset.sum_congr rfl
  intro j hj
  obtain ⟨z, hz⟩ := hdef j (Finset.mem_range.mp hj)
  obtain ⟨d, hd1, hz2⟩ := Option.bind_eq_some.mp hz
  obtain ⟨w, hw1, _⟩ := Option.bind_eq_some.mp hz2
  simp [hd1, hw1]

theorem hiddenDeltas_total (nn : NeuralNetwork α) (od : List α) (hnh : 0 ≤ nn.nh)
    (hod : nn.no.toNat ≤ od.length) (hah : nn.nh.toNat ≤ nn.ah.length)
    (hwo : nn.wo.map List.length = List.replicate nn.nh.toNat nn.no.toNat) :
    ∃ hd, hiddenDeltas nn od = some hd := by
  unfold hiddenDeltas
  rw [vector_total _ _ hnh, Option.some_bind]
  obtain ⟨t, ht, _⟩ := forLoop_total
    (fun _ (u : List α) => u.length = nn.nh.toNat)
    (fun i (u : List α) =>
      (forLoop (fun j e =>
          (od[j]?).bind fun d => (getAt nn.wo i j).bind fun w => some (e + d * w))
        nn.no.toNat 0).bind fun e =>
      (nn.ah[i]?).bind fun a => setIdx u i (dsigmoid a * e))
    nn.nh.toNat (List.replicate nn.nh.toNat 0) (by simp)
    (by
      intro i u hi hu
      obtain ⟨e, he, _⟩ := forLoop_total (fun _ (_ : α) => True)
        (fun j e =>
          (od[j]?).bind fun d => (getAt nn.wo i j).bind fun w => some (e + d * w))
        nn.no.toNat 0 trivial
        (by
          intro j x hj _
          obtain ⟨w, hw⟩ := getAt_of_shape hwo hi hj
          have e1 : od[j]? = some od[j] := List.getElem?_eq_getElem (by omega)
          exact ⟨_, by beta_reduce; rw [e1, hw]; rfl, trivial⟩)
      have e2 : nn.ah[i]? = some nn.ah[i] := List.getElem?_eq_getElem (by omega)
      refine ⟨u.set i (dsigmoid nn.ah[i] * e), ?_, by simp [hu]⟩
      simp only [he, e2, Option.some_bind]
      exact setIdx_of_lt _ (by omega))
  exact ⟨t, ht⟩

/-- The error returned: half the sum of the squared differences between the targets
and the output activations given. -/
theorem sumSquaredError_some (targets ao : List α) (e : α)
    (h : sumSquaredError targets ao = some e) :
    targets.length ≤ ao.length ∧
    e = (1 / 2) * ∑ i ∈ Finset.range targets.length,
      ((targets[i]?).getD 0 - (ao[i]?).getD 0) ^ 2 := by
  unfold sumSquaredError at h
  have hbody : ∀ i (u : α), i < targets.length →
      ((targets[i]?).bind fun t => (ao[i]?).bind fun o =>
        some (u + (1 / 2) * (t - o) ^ 2)) =
      ((targets[i]?).bind fun t => (ao[i]?).bind fun o =>
        some ((1 / 2) * (t - o) ^ 2)).bind fun z => some (u + z) := by
    intro i u _
    cases targets[i]? <;> cases ao[i]? <;> rfl
  rw [forLoop_congr _ _ _ _ hbody] at h
  obtain ⟨hdef, hsum⟩ := accLoop_some _ _ _ _ h
  have hd : ∀ i, i < targets.length → ∃ t o, targets[i]? = some t ∧ ao[i]? = some o := by
    intro i hi
    obtain ⟨z, hz⟩ := hdef i hi
    obtain ⟨t, ht, hz2⟩ := Option.bind_eq_some.mp hz
    obtain ⟨o, ho, _⟩ := Option.bind_eq_some.mp hz2
    exact ⟨t, o, ht, ho⟩
  refine ⟨?_, ?_⟩
  · by_contra hlt
    obtain ⟨_, o, _, ho⟩ := hd ao.length (by omega)
    rw [List.getElem?_eq_none (Nat.le_refl _)] at ho
    cases ho
  · rw [hsum, zero_add, Finset.mul_sum]
    apply Finset.sum_congr rfl
    intro i hi
    obtain ⟨t, o, ht, ho⟩ := hd i (Finset.mem_range.mp hi)
    simp [ht, ho]

theorem sumSquaredError_total (targets ao : List α) (h : targets.length ≤ ao.length) :
    ∃ e, sumSquaredError targets ao = some e := by
  unfold sumSquaredError
  obtain ⟨t, ht, _⟩ := forLoop_total (fun _ (_ : α) => True)
    (fun i e =>
      (targets[i]?).bind fun t => (ao[i]?).bind fun o => some (e + (1 / 2) * (t - o) ^ 2))
    targets.length 0 trivial
    (by
      intro i u hi _
      have e1 : targets[i]? = some targets[i] := List.getElem?_eq_getElem hi
      have e2 : ao[i]? = some ao[i] := List.getElem?_eq_getElem (by omega)
      exact ⟨_, by beta_reduce; rw [e1, e2]; rfl, trivial⟩)
  exact ⟨t, ht⟩

end Deltas

/-! ## The backward pass -/

section Backward

variable {α : Type} [Field α]

theorem BackPropagate_of_length_ne (nn : NeuralNetwork α) (targets : List α)
    (lRate mFactor : α) (h : (targets.length : Int) ≠ nn.no) :
    BackPropagate nn targets lRate mFactor = some (nn, 0) := by
  unfold BackPropagate
  rw [if_pos h]

/-- The five steps of a completed `BackPropagate` on a target of the right length. -/
theorem BackPropagate_of_length_eq (nn : NeuralNetwork α) (targets : List α)
    (lRate mFactor : α) (h : (targets.length : Int) = nn.no) (r : NeuralNetwork α × α)
    (hr : BackPropagate nn targets lRate mFactor = some r) :
    ∃ od hd wo2 co2 wi2 ci2 e,
      outputDeltas nn targets = some od ∧ hiddenDeltas nn od = some hd ∧
      updateWeights nn.nh.toNat nn.no.toNat od nn.ah lRate mFactor (nn.wo, nn.co) =
        some (wo2, co2) ∧
      updateWeights nn.ni.toNat nn.nh.toNat hd nn.ai lRate mFactor (nn.wi, nn.ci) =
        some (wi2, ci2) ∧
      sumSquaredError targets nn.ao = some e ∧
      r = (⟨nn.ni, nn.nh, nn.no, nn.regression, nn.ai, nn.ah, nn.ao, wi2, wo2, ci2, co2⟩,
        e) := by
  unfold BackPropagate at hr
  rw [if_neg (not_not.mpr h)] at hr
  obtain ⟨od, hod, hr⟩ := Option.bind_eq_some.mp hr
  obtain ⟨hd, hhd, hr⟩ := Option.bind_eq_some.mp hr
  obtain ⟨r1, hr1, hr⟩ := Option.bind_eq_some.mp hr
  obtain ⟨r2, hr2, hr⟩ := Option.bind_eq_some.mp hr
  obtain ⟨e, he, hr⟩ := Option.bind_eq_some.mp hr
  exact ⟨od, hd, r1.1, r1.2, r2.1, r2.2, e, hod, hhd, hr1, hr2, he,
    (Option.some.inj hr).symm⟩

/-- `BackPropagate` keeps the sizes, the mode and the three activation slices. -/
theorem BackPropagate_frame (nn : NeuralNetwork α) (targets : List α)
    (lRate mFactor : α) (r : NeuralNetwork α × α)
    (hr : BackPropagate nn targets lRate mFactor = some r) :
    (r.1.ni = nn.ni ∧ r.1.nh = nn.nh ∧ r.1.no = nn.no ∧ r.1.regression = nn.regression) ∧
    r.1.ai = nn.ai ∧ r.1.ah = nn.ah ∧ r.1.ao = nn.ao := by
  by_cases hlen : (targets.length : Int) = nn.no
  · obtain ⟨od, hd, wo2, co2, wi2, ci2, e, _, _, _, _, _, rfl⟩ :=
      BackPropagate_of_length_eq nn targets lRate mFactor hlen r hr
    exact ⟨⟨rfl, rfl, rfl, rfl⟩, rfl, rfl, rfl⟩
  · rw [BackPropagate_of_length_ne nn targets lRate mFactor hlen] at hr
    cases hr
    exact ⟨⟨rfl, rfl, rfl, rfl⟩, rfl, rfl, rfl⟩

/-- `BackPropagate` keeps the shape of the four matrices. -/
theorem BackPropagate_shapes (nn : NeuralNetwork α) (targets : List α)
    (lRate mFactor : α) (r : NeuralNetwork α × α)
    (hr : BackPropagate nn targets lRate mFactor = some r) :
    r.1.wi.map List.length = nn.wi.map List.length ∧
    r.1.wo.map List.length = nn.wo.map List.length ∧
    r.1.ci.map List.length = nn.ci.map List.length ∧
    r.1.co.map List.length = nn.co.map List.length := by
  by_cases hlen : (targets.length : Int) = nn.no
  · obtain ⟨od, hd, wo2, co2, wi2, ci2, e, _, _, h1, h2, _, rfl⟩ :=
      BackPropagate_of_length_eq nn targets lRate mFactor hlen r hr
    obtain ⟨⟨a1, a2⟩, _⟩ := updateWeights_some _ _ _ _ _ _ _ _ _ _ h1
    obtain ⟨⟨b1, b2⟩, _⟩ := updateWeights_some _ _ _ _ _ _ _ _ _ _ h2
    exact ⟨b1, a1, b2, a2⟩
  · rw [BackPropagate_of_length_ne nn targets lRate mFactor hlen] at hr
    cases hr
    exact ⟨rfl, rfl, rfl, rfl⟩

theorem BackPropagate_wellShaped (nn : NeuralNetwork α) (targets : List α)
    (lRate mFactor : α) (r : NeuralNetwork α × α)
    (hr : BackPropagate nn targets lRate mFactor = some r) (hws : WellShaped nn) :
    WellShaped r.1 := by
  obtain ⟨⟨e1, e2, e3, _⟩, e4, e5, e6⟩ := BackPropagate_frame nn targets lRate mFactor r hr
  obtain ⟨s1, s2, s3, s4⟩ := BackPropagate_shapes nn targets lRate mFactor r hr
  unfold WellShaped at hws ⊢
  rw [e1, e2, e3, e4, e5, e6, s1, s2, s3, s4]
  exact hws

/-- On a shape-consistent state `BackPropagate` completes. -/
theorem BackPropagate_total (nn : NeuralNetwork α) (targets : List α)
    (lRate mFactor : α) (hws : WellShaped nn) :
    ∃ r, BackPropagate nn targets lRate mFactor = some r := by
  by_cases hlen : (targets.length : Int) = nn.no
  · obtain ⟨⟨hni0, _⟩, ⟨hnh0, _⟩, ⟨hno0, _⟩, hai, hah, hao, hwi, hwo, hci, hco⟩ := hws
    have hlen2 : targets.length = nn.no.toNat := by omega
    obtain ⟨od, hod⟩ := outputDeltas_total nn targets hno0 (by omega) (by omega)
    obtain ⟨_, hodl, _⟩ := outputDeltas_some nn targets od hod
    obtain ⟨hd, hhd⟩ := hiddenDeltas_total nn od hnh0 (by omega) (by omega) hwo
    obtain ⟨_, hhdl, _⟩ := hiddenDeltas_some nn od hd hhd
    obtain ⟨r1, hr1⟩ := updateWeights_total nn.nh.toNat nn.no.toNat od nn.ah lRate mFactor
      nn.wo nn.co (by omega) (by omega) hwo hco
    obtain ⟨r2, hr2⟩ := updateWeights_total nn.ni.toNat nn.nh.toNat hd nn.ai lRate mFactor
      nn.wi nn.ci (by omega) (by omega) hwi hci
    obtain ⟨e, he⟩ := sumSquaredError_total targets nn.ao (by omega)
    refine ⟨(⟨nn.ni, nn.nh, nn.no, nn.regression, nn.ai, nn.ah, nn.ao,
      r2.1, r1.1, r2.2, r1.2⟩, e), ?_⟩
    unfold BackPropagate
    rw [if_neg (not_not.mpr hlen), hod, Option.some_bind, hhd, Option.some_bind, hr1,
      Option.some_bind, hr2, Option.some_bind, he, Option.some_bind]
  · exact ⟨_, BackPropagate_of_length_ne nn targets lRate mFactor hlen⟩

end Backward

/-! ## The training loop -/

section Training

variable {α : Type} [Field α]

/-- Hoare rule for a completed loop over the elements of a slice. -/
theorem foldlM_some_inv {σ β : Type} (P : σ → Prop) (f : σ → β → Option σ) :
    ∀ (l : List β) (s t : σ), l.foldlM f s = some t → P s →
      (∀ u v b, b ∈ l → P u → f u b = some v → P v) → P t := by
  intro l
  induction l with
  | nil =>
    intro s t h h0 _
    simp only [List.foldlM_nil] at h
    cases h
    exact h0
  | cons b bs ih =>
    intro s t h h0 hstep
    rw [List.foldlM_cons] at h
    obtain ⟨u, hu, hrest⟩ := Option.bind_eq_some.mp h
    exact ih u t hrest (hstep s u b (List.mem_cons_self b bs) h0 hu)
      (fun a c d hd => hstep a c d (List.mem_cons_of_mem b hd))

theorem specEpoch_cons (exp : α → α) (lRate mFactor : α) (nn : NeuralNetwork α)
    (p : List (List α)) (ps : List (List (List α))) :
    specEpoch exp lRate mFactor nn (p :: ps) =
      (p[0]?).bind fun input => (p[1]?).bind fun target =>
      (Update exp nn input).bind fun r1 =>
      (BackPropagate r1.1 target lRate mFactor).bind fun r2 =>
      (specEpoch exp lRate mFactor r2.1 ps).bind fun r3 => some (r3.1, r2.2 :: r3.2) := rfl

theorem specTrain_succ (exp : α → α) (lRate mFactor : α)
    (patterns : List (List (List α))) (k : Nat) (nn : NeuralNetwork α) :
    specTrain exp lRate mFactor patterns (k + 1) nn =
      (specTrain exp lRate mFactor patterns k nn).bind fun r =>
      (specEpoch exp lRate mFactor r.1 patterns).bind fun r2 =>
        some (r2.1, r.2 ++ [r2.2.sum]) := rfl

theorem trainStep_eq (exp : α → α) (lRate mFactor : α) (st : NeuralNetwork α × α)
    (p : List (List α)) :
    trainStep exp lRate mFactor st p =
      (p[0]?).bind fun p0 => (Update exp st.1 p0).bind fun r1 =>
      (p[1]?).bind fun p1 => (BackPropagate r1.1 p1 lRate mFactor).bind fun r2 =>
      some (r2.1, st.2 + r2.2) := rfl

/-- The specification returns one value for each iteration. -/
theorem specTrain_length (exp : α → α) (lRate mFactor : α)
    (patterns : List (List (List α))) :
    ∀ (k : Nat) (nn : NeuralNetwork α) (r : NeuralNetwork α × List α),
      specTrain exp lRate mFactor patterns k nn = some r → r.2.length = k := by
  intro k
  induction k with
  | zero =>
    intro nn r h
    simp only [specTrain, Option.some.injEq] at h
    rw [← h]; rfl
  | succ j ih =>
    intro nn r h
    rw [specTrain_succ] at h
    obtain ⟨a, ha, h⟩ := Option.bind_eq_some.mp h
    obtain ⟨b, _, h⟩ := Option.bind_eq_some.mp h
    rw [← Option.some.inj h]
    simp [ih nn a ha]

/-- The loop over the patterns is one iteration of the specification, the errors
being added to the running total `e`. -/
theorem foldlM_trainStep (exp : α → α) (lRate mFactor : α) :
    ∀ (ps : List (List (List α))) (nn : NeuralNetwork α) (e : α),
      ps.foldlM (trainStep exp lRate mFactor) (nn, e) =
        (specEpoch exp lRate mFactor nn ps).bind fun r => some (r.1, e + r.2.sum) := by
  intro ps
  induction ps with
  | nil =>
    intro nn e
    simp [specEpoch]
  | cons p ps ih =>
    intro nn e
    rw [List.foldlM_cons, trainStep_eq, specEpoch_cons]
    cases p[0]? with
    | none => rfl
    | some p0 =>
      cases hU : Update exp nn p0 with
      | none => cases p[1]? <;> simp [hU]
      | some r1 =>
        cases p[1]? with
        | none => simp [hU]
        | some p1 =>
          cases hB : BackPropagate r1.1 p1 lRate mFactor with
          | none => simp [hU, hB]
          | some r2 =>
            simp only [hU, hB, Option.some_bind, Option.bind_eq_bind]
            rw [ih]
            cases specEpoch exp lRate mFactor r2.1 ps with
            | none => rfl
            | some r3 => simp [add_assoc]

/-- The loop of `Train` after `k` iterations: the first `k` slots of `errors` hold
the values of the specification, the others are still `0.0`. -/
theorem Train_loop (exp : α → α) (lRate mFactor : α) (patterns : List (List (List α)))
    (nn : NeuralNetwork α) (N : Nat) :
    ∀ k, k ≤ N →
      forLoop (fun i (st : NeuralNetwork α × List α) =>
        (patterns.foldlM (trainStep exp lRate mFactor) (st.1, 0)).bind fun r =>
        (setIdx st.2 i r.2).bind fun errors2 => some (r.1, errors2))
        k (nn, List.replicate N 0) =
      (specTrain exp lRate mFactor patterns k nn).bind fun r =>
        some (r.1, r.2 ++ List.replicate (N - k) 0) := by
  intro k
  induction k with
  | zero =>
    intro _
    simp [forLoop, specTrain]
  | succ k ih =>
    intro hk
    rw [forLoop_succ, ih (by omega), specTrain_succ]
    cases hT : specTrain exp lRate mFactor patterns k nn with
    | none => rfl
    | some r =>
      have hlen : r.2.length = k := specTrain_length exp lRate mFactor patterns k nn r hT
      simp only [Option.some_bind]
      rw [foldlM_trainStep]
      cases specEpoch exp lRate mFactor r.1 patterns with
      | none => rfl
      | some r2 =>
        simp only [Option.some_bind]
        have hlt : k < (r.2 ++ List.replicate (N - k) (0 : α)).length := by
          simp [hlen]; omega
        rw [setIdx_of_lt _ hlt, Option.some_bind]
        congr 2
        apply List.ext_getElem?
        intro i
        rw [List.getElem?_set]
        by_cases hik : k = i
        · subst hik
          rw [if_pos rfl, if_pos hlt, List.getElem?_append_left (by simp [hlen]),
            List.getElem?_append_right (by omega)]
          simp [hlen]
        · rw [if_neg hik]
          by_cases hi : i < k
          · rw [List.getElem?_append_left (by omega),
              List.getElem?_append_left (by simp [hlen]; omega),
              List.getElem?_append_left (by omega)]
          · rw [List.getElem?_append_right (by omega),
              List.getElem?_append_right (by simp [hlen]; omega)]
            simp only [List.length_append, List.length_singleton, hlen,
              List.getElem?_replicate]
            by_cases h1 : i - k < N - k
            · rw [if_pos h1, if_pos (by omega)]
            · rw [if_neg h1, if_neg (by omega)]

/-- `Train` is the training loop of the specification. -/
theorem Train_eq_specTrain (exp : α → α) (nn : NeuralNetwork α)
    (patterns : List (List (List α))) (iterations : Int) (lRate mFactor : α)
    (hN : 0 ≤ iterations) :
    Train exp nn patterns iterations lRate mFactor =
      specTrain exp lRate mFactor patterns iterations.toNat nn := by
  unfold Train makeSlice
  rw [if_neg (by omega), Option.some_bind,
    Train_loop exp lRate mFactor patterns nn iterations.toNat iterations.toNat (Nat.le_refl _)]
  cases specTrain exp lRate mFactor patterns iterations.toNat nn with
  | none => rfl
  | some r => simp

theorem Train_nonneg (exp : α → α) (nn : NeuralNetwork α)
    (patterns : List (List (List α))) (iterations : Int) (lRate mFactor : α)
    (r : NeuralNetwork α × List α)
    (h : Train exp nn patterns iterations lRate mFactor = some r) : 0 ≤ iterations := by
  unfold Train makeSlice at h
  by_contra hneg
  rw [if_pos (by omega)] at h
  cases h

end Training

/-! ## Shape consistency is an invariant -/

section Invariant

variable {α : Type} [Field α]

theorem specEpoch_wellShaped (exp : α → α) (lRate mFactor : α) :
    ∀ (ps : List (List (List α))) (nn : NeuralNetwork α) (r : NeuralNetwork α × List α),
      specEpoch exp lRate mFactor nn ps = some r → WellShaped nn → WellShaped r.1 := by
  intro ps
  induction ps with
  | nil =>
    intro nn r h hws
    simp only [specEpoch, Option.some.injEq] at h
    rw [← h]; exact hws
  | cons p ps ih =>
    intro nn r h hws
    rw [specEpoch_cons] at h
    obtain ⟨p0, _, h⟩ := Option.bind_eq_some.mp h
    obtain ⟨p1, _, h⟩ := Option.bind_eq_some.mp h
    obtain ⟨r1, h1, h⟩ := Option.bind_eq_some.mp h
    obtain ⟨r2, h2, h⟩ := Option.bind_eq_some.mp h
    obtain ⟨r3, h3, h⟩ := Option.bind_eq_some.mp h
    rw [← Option.some.inj h]
    exact ih r2.1 r3 h3 (BackPropagate_wellShaped _ _ _ _ r2 h2
      (Update_wellShaped exp nn p0 r1 h1 hws))

/-- On a shape-consistent state, one iteration over examples that each hold an input
and a target completes, with one error for each example. -/
theorem specEpoch_total (exp : α → α) (lRate mFactor : α) :
    ∀ (ps : List (List (List α))) (nn : NeuralNetwork α),
      (∀ p ∈ ps, 2 ≤ p.length) → WellShaped nn →
      ∃ r, specEpoch exp lRate mFactor nn ps = some r ∧ r.2.length = ps.length := by
  intro ps
  induction ps with
  | nil =>
    intro nn _ _
    exact ⟨(nn, []), rfl, rfl⟩
  | cons p ps ih =>
    intro nn hp hws
    have hp2 : 2 ≤ p.length := hp p (List.mem_cons_self p ps)
    have e0 : p[0]? = some p[0] := List.getElem?_eq_getElem (by omega)
    have e1 : p[1]? = some p[1] := List.getElem?_eq_getElem (by omega)
    obtain ⟨r1, h1⟩ := Update_total exp nn p[0] hws
    have hws1 := Update_wellShaped exp nn p[0] r1 h1 hws
    obtain ⟨r2, h2⟩ := BackPropagate_total r1.1 p[1] lRate mFactor hws1
    have hws2 := BackPropagate_wellShaped r1.1 p[1] lRate mFactor r2 h2 hws1
    obtain ⟨r3, h3, hl⟩ := ih r2.1 (fun q hq => hp q (List.mem_cons_of_mem p hq)) hws2
    refine ⟨(r3.1, r2.2 :: r3.2), ?_, by simp [hl]⟩
    rw [specEpoch_cons, e0, Option.some_bind, e1, Option.some_bind, h1, Option.some_bind,
      h2, Option.some_bind, h3, Option.some_bind]

theorem specTrain_wellShaped (exp : α → α) (lRate mFactor : α)
    (patterns : List (List (List α))) :
    ∀ (k : Nat) (nn : NeuralNetwork α) (r : NeuralNetwork α × List α),
      specTrain exp lRate mFactor patterns k nn = some r → WellShaped nn →
      WellShaped r.1 := by
  intro k
  induction k with
  | zero =>
    intro nn r h hws
    simp only [specTrain, Option.some.injEq] at h
    rw [← h]; exact hws
  | succ j ih =>
    intro nn r h hws
    rw [specTrain_succ] at h
    obtain ⟨a, ha, h⟩ := Option.bind_eq_some.mp h
    obtain ⟨b, hb, h⟩ := Option.bind_eq_some.mp h
    rw [← Option.some.inj h]
    exact specEpoch_wellShaped exp lRate mFactor patterns a.1 b hb (ih nn a ha hws)

theorem specTrain_total (exp : α → α) (lRate mFactor : α)
    (patterns : List (List (List α))) (hp : ∀ p ∈ patterns, 2 ≤ p.length) :
    ∀ (k : Nat) (nn : NeuralNetwork α), WellShaped nn →
      ∃ r, specTrain exp lRate mFactor patterns k nn = some r := by
  intro k
  induction k with
  | zero =>
    intro nn _
    exact ⟨(nn, []), rfl⟩
  | succ j ih =>
    intro nn hws
    obtain ⟨a, ha⟩ := ih nn hws
    obtain ⟨b, hb, _⟩ := specEpoch_total exp lRate mFactor patterns a.1 hp
      (specTrain_wellShaped exp lRate mFactor patterns j nn a ha hws)
    exact ⟨(b.1, a.2 ++ [b.2.sum]), by
      rw [specTrain_succ, ha, Option.some_bind, hb, Option.some_bind]⟩

theorem Train_wellShaped (exp : α → α) (nn : NeuralNetwork α)
    (patterns : List (List (List α))) (iterations : Int) (lRate mFactor : α)
    (r : NeuralNetwork α × List α)
    (h : Train exp nn patterns iterations lRate mFactor = some r) (hws : WellShaped nn) :
    WellShaped r.1 := by
  have hN := Train_nonneg exp nn patterns iterations lRate mFactor r h
  rw [Train_eq_specTrain exp nn patterns iterations lRate mFactor hN] at h
  exact specTrain_wellShaped exp lRate mFactor patterns _ nn r h hws

/-- Every state `Test` goes through has the weights, the momentum and the sizes of
the first, and activation slices of the same lengths. -/
theorem Test_frame (exp : α → α) (nn : NeuralNetwork α)
    (patterns : List (List (List α)))
    (r : NeuralNetwork α × List (List α × List α × List α))
    (h : Test exp nn patterns = some r) :
    ((r.1.ni = nn.ni ∧ r.1.nh = nn.nh ∧ r.1.no = nn.no ∧
        r.1.regression = nn.regression) ∧
      r.1.wi = nn.wi ∧ r.1.wo = nn.wo ∧ r.1.ci = nn.ci ∧ r.1.co = nn.co) ∧
    (r.1.ai.length = nn.ai.length ∧ r.1.ah.length = nn.ah.length ∧
      r.1.ao.length = nn.ao.length) := by
  unfold Test at h
  have key := foldlM_some_inv
    (fun (st : NeuralNetwork α × List (List α × List α × List α)) =>
      ((st.1.ni = nn.ni ∧ st.1.nh = nn.nh ∧ st.1.no = nn.no ∧
          st.1.regression = nn.regression) ∧
        st.1.wi = nn.wi ∧ st.1.wo = nn.wo ∧ st.1.ci = nn.ci ∧ st.1.co = nn.co) ∧
      (st.1.ai.length = nn.ai.length ∧ st.1.ah.length = nn.ah.length ∧
        st.1.ao.length = nn.ao.length))
    _ patterns (nn, []) r h
    ⟨⟨⟨rfl, rfl, rfl, rfl⟩, rfl, rfl, rfl, rfl⟩, rfl, rfl, rfl⟩
  apply key
  intro u v p _ hu hstep
  obtain ⟨p0, _, hstep⟩ := Option.bind_eq_some.mp hstep
  obtain ⟨r1, h1, hstep⟩ := Option.bind_eq_some.mp hstep
  obtain ⟨p1, _, hstep⟩ := Option.bind_eq_some.mp hstep
  rw [← Option.some.inj hstep]
  obtain ⟨⟨a1, a2, a3, a4⟩, a5, a6, a7, a8⟩ := Update_frame exp u.1 p0 r1 h1
  obtain ⟨l1, l2, l3⟩ := Update_lengths exp u.1 p0 r1 h1
  obtain ⟨⟨⟨b1, b2, b3, b4⟩, b5, b6, b7, b8⟩, m1, m2, m3⟩ := hu
  exact ⟨⟨⟨a1.trans b1, a2.trans b2, a3.trans b3, a4.trans b4⟩, a5.trans b5,
    a6.trans b6, a7.trans b7, a8.trans b8⟩, l1.trans m1, l2.trans m2, l3.trans m3⟩

theorem Test_wellShaped (exp : α → α) (nn : NeuralNetwork α)
    (patterns : List (List (List α)))
    (r : NeuralNetwork α × List (List α × List α × List α))
    (h : Test exp nn patterns = some r) (hws : WellShaped nn) : WellShaped r.1 := by
  obtain ⟨⟨⟨e1, e2, e3, _⟩, e4, e5, e6, e7⟩, l1, l2, l3⟩ := Test_frame exp nn patterns r h
  unfold WellShaped at hws ⊢
  rw [e1, e2, e3, e4, e5, e6, e7, l1, l2, l3]
  exact hws

theorem wrapInt_lt (x : Int) : wrapInt x < 2 ^ 63 := by
  unfold wrapInt
  omega

theorem matrix_some (I J : Int) (m : List (List α)) (h : matrix I J = some m) :
    0 ≤ I ∧ m.map List.length = List.replicate I.toNat J.toNat := by
  unfold matrix makeSlice at h
  by_cases hI : I < 0
  · rw [if_pos hI] at h
    cases h
  · rw [if_neg hI, Option.some_bind] at h
    refine ⟨by omega, ?_⟩
    obtain ⟨_, hlen, hlo, _⟩ := setLoop_some
      (fun _ => if J < 0 then none else some (List.replicate J.toNat (0 : α))) I.toNat _ m h
    rw [List.length_replicate] at hlen
    apply List.ext_getElem?
    intro i
    rw [List.getElem?_map, List.getElem?_replicate]
    split
    · rename_i hi
      have h1 := hlo i hi
      by_cases hJ : J < 0
      · rw [if_pos hJ, List.getElem?_eq_getElem (by omega)] at h1
        cases h1
      · rw [if_neg hJ] at h1
        rw [h1]
        simp
    · rw [List.getElem?_eq_none (by omega)]
      rfl

/-- Filling a matrix with random values keeps its shape. -/
theorem fillRandom_shape (draws : Nat → α) (I J : Int) (st r : List (List α) × Nat)
    (h : fillRandom draws I J st = some r) :
    r.1.map List.length = st.1.map List.length := by
  unfold fillRandom at h
  apply forLoop_some_inv
    (fun _ (u : List (List α) × Nat) => u.1.map List.length = st.1.map List.length)
    _ I.toNat st r h rfl
  intro i u v _ hu hb
  apply forLoop_some_inv
    (fun _ (x : List (List α) × Nat) => x.1.map List.length = st.1.map List.length)
    _ J.toNat u v hb hu
  intro j x y _ hx hstep
  obtain ⟨m, hm, hstep⟩ := Option.bind_eq_some.mp hstep
  rw [← Option.some.inj hstep]
  show m.map List.length = _
  rw [setAt_shape hm, hx]

/-- A network built by `New` is shape-consistent. -/
theorem New_wellShaped (draws : Nat → α) (ni nh no : Int) (regression : Bool)
    (nn : NeuralNetwork α) (hno : no < 2 ^ 63)
    (h : New draws ni nh no regression = some nn) : WellShaped nn := by
  unfold New at h
  simp only at h
  obtain ⟨ai, hai, h⟩ := Option.bind_eq_some.mp h
  obtain ⟨ah, hah, h⟩ := Option.bind_eq_some.mp h
  obtain ⟨ao, hao, h⟩ := Option.bind_eq_some.mp h
  obtain ⟨wi0, hwi0, h⟩ := Option.bind_eq_some.mp h
  obtain ⟨wo0, hwo0, h⟩ := Option.bind_eq_some.mp h
  obtain ⟨r1, hr1, h⟩ := Option.bind_eq_some.mp h
  obtain ⟨r2, hr2, h⟩ := Option.bind_eq_some.mp h
  obtain ⟨ci, hci, h⟩ := Option.bind_eq_some.mp h
  obtain ⟨co, hco, h⟩ := Option.bind_eq_some.mp h
  rw [← Option.some.inj h]
  obtain ⟨p1, rfl⟩ := vector_some _ _ _ hai
  obtain ⟨p2, rfl⟩ := vector_some _ _ _ hah
  obtain ⟨p3, rfl⟩ := vector_some _ _ _ hao
  have s1 := fillRandom_shape draws _ _ _ _ hr1
  have s2 := fillRandom_shape draws _ _ _ _ hr2
  exact ⟨⟨p1, wrapInt_lt _⟩, ⟨p2, wrapInt_lt _⟩, ⟨p3, hno⟩,
    List.length_replicate _ _, List.length_replicate _ _, List.length_replicate _ _,
    s1.trans (matrix_some _ _ _ hwi0).2, s2.trans (matrix_some _ _ _ hwo0).2,
    (matrix_some _ _ _ hci).2, (matrix_some _ _ _ hco).2⟩

/-- Every reachable state is shape-consistent. -/
theorem Reachable_wellShaped (exp : α → α) (nn : NeuralNetwork α)
    (h : Reachable exp nn) : WellShaped nn := by
  induction h with
  | new draws ni nh no regression nn _ _ _ _ _ hno hnew =>
    exact New_wellShaped draws ni nh no regression nn hno hnew
  | update nn inputs r _ hr ih => exact Update_wellShaped exp nn inputs r hr ih
  | backPropagate nn targets lRate mFactor r _ hr ih =>
    exact BackPropagate_wellShaped nn targets lRate mFactor r hr ih
  | train nn patterns iterations lRate mFactor r _ hr ih =>
    exact Train_wellShaped exp nn patterns iterations lRate mFactor r hr ih
  | test nn patterns r _ hr ih => exact Test_wellShaped exp nn patterns r hr ih

end Invariant

/-! ## Range of the outputs -/

section Range

variable {α : Type} [LinearOrderedField α]

/-- With a positive exponential, the logistic function lies strictly between 0 and 1. -/
theorem sigmoid_range (exp : α → α) (hexp : ∀ x, 0 < exp x) (x : α) :
    0 < sigmoid exp x ∧ sigmoid exp x < 1 := by
  unfold sigmoid
  have h := hexp (-x)
  have hpos : 0 < 1 + exp (-x) := by linarith
  refine ⟨by positivity, ?_⟩
  rw [div_lt_one hpos]
  linarith

/-- C1: on every network reachable from `New` (counts that are non-negative Go ints)
and every input whose length is `inputCount = ni - 1`, `Update` completes and returns
a vector of exactly `no = outputCount` components; when `regression` is false every
component lies strictly between 0 and 1. Arithmetic is exact (an ordered field) and
`exp` is any positive function, as the real exponential is. -/
theorem Update_output_length_and_range (exp : α → α) (hexp : ∀ x, 0 < exp x)
    (nn : NeuralNetwork α) (hreach : Reachable exp nn) (inputs : List α)
    (hlen : (inputs.length : Int) = nn.ni - 1) :
    ∃ r, Update exp nn inputs = some r ∧ (r.2.length : Int) = nn.no ∧
      (nn.regression = false → ∀ y ∈ r.2, 0 < y ∧ y < 1) := by
  have hws := Reachable_wellShaped exp nn hreach
  obtain ⟨r, hr⟩ := Update_total exp nn inputs hws
  obtain ⟨⟨hni0, hni1⟩, _, ⟨hno0, _⟩, _, _, hao, _⟩ := hws
  have hw : wrapInt (nn.ni - 1) = nn.ni - 1 := wrapInt_of_range _ (by omega) (by omega)
  obtain ⟨h1, ⟨_, _, h2⟩, _, _, _, _, h3⟩ :=
    Update_spec exp nn inputs (by rw [hw]; exact hlen) r hr
  refine ⟨r, hr, ?_, ?_⟩
  · rw [h1, h2, hao]
    omega
  · intro hreg y hy
    rw [h1] at hy
    obtain ⟨i, hi, rfl⟩ := List.getElem_of_mem hy
    have h4 := h3 i (by omega)
    rw [hreg, List.getElem?_eq_getElem hi] at h4
    rw [Option.some.inj h4]
    exact sigmoid_range exp hexp _

/-- Witness of C1: the network `New(1, 1, 1, false)` with every draw `0`, the real
exponential and the input `[0]`. -/
theorem Update_output_length_and_range_witness :
    ∃ nn : NeuralNetwork ℝ, New (fun _ => (0 : ℝ)) 1 1 1 false = some nn ∧
      ((([0] : List ℝ).length : Int) = nn.ni - 1) ∧
      ∃ r, Update Real.exp nn [0] = some r ∧ (r.2.length : Int) = nn.no ∧
        (nn.regression = false → ∀ y ∈ r.2, 0 < y ∧ y < 1) :=
  ⟨_, rfl, by decide,
    Update_output_length_and_range Real.exp Real.exp_pos _
      (Reachable.new (fun _ => 0) 1 1 1 false _ (by decide) (by decide) (by decide)
        (by decide) (by decide) (by decide) rfl) [0] (by decide)⟩

end Range

/-! ## Length mismatches -/

section Mismatch

variable {α : Type} [Field α]

/-- The network `exampleNet` is what `New(2, 2, 1, false)` returns when every draw of
the random source is `0.5`. -/
theorem New_exampleNet :
    New (fun _ => (1 / 2 : ℝ)) 2 2 1 false = some (exampleNet ℝ) := by
  simp [New, exampleNet, vector, matrix, fillRandom, makeSlice, forLoop, wrapInt, setIdx,
    setAt, random]
  norm_num

/-- C2 (the code at the failing inputs): on the network `exampleNet`, built by
`New(2, 2, 1, false)` and expecting 2 inputs and 1 target, `Update` with 1 input
returns the empty sequence and `BackPropagate` with no target returns `0.0`, both
leaving the state as it was; and `0.0` is also what the completed `BackPropagate` on
the target `[1]` returns. No failure result is produced. -/
theorem mismatch_returns_placeholder :
    New (fun _ => (1 / 2 : ℝ)) 2 2 1 false = some (exampleNet ℝ) ∧
    Update Real.exp (exampleNet ℝ) [1] = some (exampleNet ℝ, []) ∧
    BackPropagate (exampleNet ℝ) [] (1 / 2) (1 / 10) = some (exampleNet ℝ, 0) ∧
    (BackPropagate (exampleNet ℝ) [1] (1 / 2) (1 / 10)).map Prod.snd = some 0 := by
  refine ⟨New_exampleNet, Update_of_length_ne Real.exp (exampleNet ℝ) [1] (by decide),
    BackPropagate_of_length_ne (exampleNet ℝ) [] _ _ (by decide), ?_⟩
  obtain ⟨r, hr⟩ := BackPropagate_total (exampleNet ℝ) [1] (1 / 2) (1 / 10) (by decide)
  obtain ⟨_, _, _, _, _, _, e, _, _, _, _, he, rfl⟩ :=
    BackPropagate_of_length_eq (exampleNet ℝ) [1] (1 / 2) (1 / 10) (by decide) r hr
  have h0 : sumSquaredError ([1] : List ℝ) (exampleNet ℝ).ao = some 0 := by
    simp [sumSquaredError, exampleNet, forLoop]
  rw [h0] at he
  rw [hr, ← Option.some.inj he]
  rfl

/-- C3: a call of `Update` with an input whose length differs from
`inputCount = ni - 1`, and a call of `BackPropagate` with a target whose length
differs from `no`, for any `lRate` and `mFactor`, complete and leave the very state
they were given: all weights, momentum and activations are as before. -/
theorem mismatch_leaves_state (exp : α → α) (nn : NeuralNetwork α)
    (inputs targets : List α) (lRate mFactor : α) :
    ((inputs.length : Int) ≠ wrapInt (nn.ni - 1) →
      (Update exp nn inputs).map Prod.fst = some nn) ∧
    ((targets.length : Int) ≠ nn.no →
      (BackPropagate nn targets lRate mFactor).map Prod.fst = some nn) := by
  refine ⟨fun h => ?_, fun h => ?_⟩
  · rw [Update_of_length_ne exp nn inputs h]; rfl
  · rw [BackPropagate_of_length_ne nn targets lRate mFactor h]; rfl

/-- Witness of C3: one input where `exampleNet` expects two, no target where it
expects one. -/
theorem mismatch_leaves_state_witness :
    (Update Real.exp (exampleNet ℝ) [1]).map Prod.fst = some (exampleNet ℝ) ∧
    (BackPropagate (exampleNet ℝ) [] (1 / 2) (1 / 10)).map Prod.fst =
      some (exampleNet ℝ) :=
  ⟨(mismatch_leaves_state Real.exp (exampleNet ℝ) [1] [] (1 / 2) (1 / 10)).1 (by decide),
    (mismatch_leaves_state Real.exp (exampleNet ℝ) [1] [] (1 / 2) (1 / 10)).2 (by decide)⟩

end Mismatch

/-! ## The backward pass: error and momentum -/

section BackwardClaims

variable {α : Type} [Field α]

/-- C4: on every state and every target of length `no`, a completed `BackPropagate`
returns exactly `0.5 * Σ_i (t_i - o_i)^2`, where `o` is the slice of output
activations of the state the call was given (which the call leaves as it is, whatever
it does to the weights); and on every shape-consistent state the call completes. -/
theorem BackPropagate_returns_half_squared_error (nn : NeuralNetwork α)
    (targets : List α) (lRate mFactor : α) (hlen : (targets.length : Int) = nn.no) :
    (∀ r, BackPropagate nn targets lRate mFactor = some r →
      r.2 = (1 / 2) * ∑ i ∈ Finset.range targets.length,
        ((targets[i]?).getD 0 - (nn.ao[i]?).getD 0) ^ 2 ∧ r.1.ao = nn.ao) ∧
    (WellShaped nn → ∃ r, BackPropagate nn targets lRate mFactor = some r) := by
  refine ⟨?_, BackPropagate_total nn targets lRate mFactor⟩
  intro r hr
  obtain ⟨_, _, _, _, _, _, e, _, _, _, _, he, rfl⟩ :=
    BackPropagate_of_length_eq nn targets lRate mFactor hlen r hr
  exact ⟨(sumSquaredError_some targets nn.ao e he).2, rfl⟩

/-- Witness of C4: `exampleNet`, whose output activation is `1`, with the target `[0]`:
the error returned is `0.5 * (0 - 1)^2`. -/
theorem BackPropagate_returns_half_squared_error_witness :
    ∃ r, BackPropagate (exampleNet ℝ) [0] (1 / 2) (1 / 10) = some r ∧
      r.2 = (1 / 2) * ∑ i ∈ Finset.range 1,
        ((([0] : List ℝ)[i]?).getD 0 - ((exampleNet ℝ).ao[i]?).getD 0) ^ 2 := by
  have h := BackPropagate_returns_half_squared_error (exampleNet ℝ) [0] (1 / 2) (1 / 10)
    (by decide)
  obtain ⟨r, hr⟩ := h.2 (by decide)
  exact ⟨r, hr, (h.1 r hr).1⟩

/-- C5: after one completed `BackPropagate` on a target of length `no`, each momentum
entry is the unscaled change of that call: `co[h][o] = od[o] * ah[h]` and
`ci[i][h] = hd[h] * ai[i]`, where `od` and `hd` are the output and hidden deltas the
call computes. The entries are the same for any other `lRate`, `mFactor` and any
other previous momentum `ci2`, `co2`. On every shape-consistent state the call
completes. -/
theorem BackPropagate_momentum_is_change (nn : NeuralNetwork α) (targets : List α)
    (lRate mFactor : α) (hlen : (targets.length : Int) = nn.no) :
    (∀ r, BackPropagate nn targets lRate mFactor = some r →
      ∃ od hd, outputDeltas nn targets = some od ∧ hiddenDeltas nn od = some hd ∧
        (∀ h o, h < nn.nh.toNat → o < nn.no.toNat → ∃ d a, od[o]? = some d ∧
          nn.ah[h]? = some a ∧ getAt r.1.co h o = some (d * a)) ∧
        (∀ i h, i < nn.ni.toNat → h < nn.nh.toNat → ∃ d a, hd[h]? = some d ∧
          nn.ai[i]? = some a ∧ getAt r.1.ci i h = some (d * a)) ∧
        (∀ (l2 m2 : α) (ci2 co2 : List (List α)) (r2 : NeuralNetwork α × α),
          BackPropagate ⟨nn.ni, nn.nh, nn.no, nn.regression, nn.ai, nn.ah, nn.ao,
            nn.wi, nn.wo, ci2, co2⟩ targets l2 m2 = some r2 →
          (∀ h o, h < nn.nh.toNat → o < nn.no.toNat →
            getAt r2.1.co h o = getAt r.1.co h o) ∧
          (∀ i h, i < nn.ni.toNat → h < nn.nh.toNat →
            getAt r2.1.ci i h = getAt r.1.ci i h))) ∧
    (WellShaped nn → ∃ r, BackPropagate nn targets lRate mFactor = some r) := by
  refine ⟨?_, BackPropagate_total nn targets lRate mFactor⟩
  intro r hr
  obtain ⟨od, hd, wo2, co2, wi2, ci2, e, hod, hhd, h1, h2, _, rfl⟩ :=
    BackPropagate_of_length_eq nn targets lRate mFactor hlen r hr
  obtain ⟨_, hcell1, _⟩ := updateWeights_some _ _ _ _ _ _ _ _ _ _ h1
  obtain ⟨_, hcell2, _⟩ := updateWeights_some _ _ _ _ _ _ _ _ _ _ h2
  refine ⟨od, hd, hod, hhd, ?_, ?_, ?_⟩
  · intro h o hh ho
    obtain ⟨d, a, _, _, e1, e2, _, _, _, e6⟩ := hcell1 h o hh ho
    exact ⟨d, a, e1, e2, e6⟩
  · intro i h hi hh
    obtain ⟨d, a, _, _, e1, e2, _, _, _, e6⟩ := hcell2 i h hi hh
    exact ⟨d, a, e1, e2, e6⟩
  · intro l2 m2 ci3 co3 r2 hr2
    obtain ⟨od2, hd2, wo4, co4, wi4, ci4, e4, hod2, hhd2, h3, h4, _, rfl⟩ :=
      BackPropagate_of_length_eq ⟨nn.ni, nn.nh, nn.no, nn.regression, nn.ai, nn.ah, nn.ao,
        nn.wi, nn.wo, ci3, co3⟩ targets l2 m2 hlen r2 hr2
    have eod : od2 = od := Option.some.inj (hod2.symm.trans hod)
    subst eod
    have ehd : hd2 = hd := Option.some.inj (hhd2.symm.trans hhd)
    subst ehd
    obtain ⟨_, hcell3, _⟩ := updateWeights_some _ _ _ _ _ _ _ _ _ _ h3
    obtain ⟨_, hcell4, _⟩ := updateWeights_some _ _ _ _ _ _ _ _ _ _ h4
    refine ⟨?_, ?_⟩
    · intro h o hh ho
      obtain ⟨d, a, _, _, e1, e2, _, _, _, e6⟩ := hcell1 h o hh ho
      obtain ⟨d2, a2, _, _, f1, f2, _, _, _, f6⟩ := hcell3 h o hh ho
      have ed : d2 = d := Option.some.inj (f1.symm.trans e1)
      have ea : a2 = a := Option.some.inj (f2.symm.trans e2)
      show getAt co4 h o = getAt co2 h o
      rw [e6, f6, ed, ea]
    · intro i h hi hh
      obtain ⟨d, a, _, _, e1, e2, _, _, _, e6⟩ := hcell2 i h hi hh
      obtain ⟨d2, a2, _, _, f1, f2, _, _, _, f6⟩ := hcell4 i h hi hh
      have ed : d2 = d := Option.some.inj (f1.symm.trans e1)
      have ea : a2 = a := Option.some.inj (f2.symm.trans e2)
      show getAt ci4 i h = getAt ci2 i h
      rw [e6, f6, ed, ea]

/-- Witness of C5: `exampleNet` with the target `[0]`. -/
theorem BackPropagate_momentum_is_change_witness :
    ∃ r, BackPropagate (exampleNet ℝ) [0] (1 / 2) (1 / 10) = some r ∧
      ∃ od hd, outputDeltas (exampleNet ℝ) [0] = some od ∧
        hiddenDeltas (exampleNet ℝ) od = some hd ∧
        (∀ h o, h < 3 → o < 1 → ∃ d a, od[o]? = some d ∧
          (exampleNet ℝ).ah[h]? = some a ∧ getAt r.1.co h o = some (d * a)) ∧
        (∀ i h, i < 3 → h < 3 → ∃ d a, hd[h]? = some d ∧
          (exampleNet ℝ).ai[i]? = some a ∧ getAt r.1.ci i h = some (d * a)) := by
  have h := BackPropagate_momentum_is_change (exampleNet ℝ) [0] (1 / 2) (1 / 10)
    (by decide)
  obtain ⟨r, hr⟩ := h.2 (by decide)
  obtain ⟨od, hd, h1, h2, h3, h4, _⟩ := h.1 r hr
  exact ⟨r, hr, od, hd, h1, h2, h3, h4⟩

/-- C8: a completed `BackPropagate`, for any target, `lRate` and `mFactor`, leaves the
input, hidden and output activation slices exactly as they were, as well as the sizes
and the mode: only `wi`, `wo`, `ci` and `co` may differ. -/
theorem BackPropagate_keeps_activations (nn : NeuralNetwork α) (targets : List α)
    (lRate mFactor : α) (r : NeuralNetwork α × α)
    (hr : BackPropagate nn targets lRate mFactor = some r) :
    r.1.ai = nn.ai ∧ r.1.ah = nn.ah ∧ r.1.ao = nn.ao ∧
    r.1.ni = nn.ni ∧ r.1.nh = nn.nh ∧ r.1.no = nn.no ∧
    r.1.regression = nn.regression := by
  obtain ⟨⟨e1, e2, e3, e4⟩, e5, e6, e7⟩ := BackPropagate_frame nn targets lRate mFactor r hr
  exact ⟨e5, e6, e7, e1, e2, e3, e4⟩

/-- Witness of C8: `exampleNet` with the target `[0]`. -/
theorem BackPropagate_keeps_activations_witness :
    ∃ r, BackPropagate (exampleNet ℝ) [0] (1 / 2) (1 / 10) = some r ∧
      r.1.ai = [1, 1, 1] ∧ r.1.ah = [1, 1, 1] ∧ r.1.ao = [1] := by
  obtain ⟨r, hr⟩ := BackPropagate_total (exampleNet ℝ) [0] (1 / 2) (1 / 10) (by decide)
  obtain ⟨h1, h2, h3, _⟩ :=
    BackPropagate_keeps_activations (exampleNet ℝ) [0] (1 / 2) (1 / 10) r hr
  exact ⟨r, hr, h1, h2, h3⟩

end BackwardClaims

/-! ## The forward pass: idempotence and frame -/

section ForwardClaims

variable {α : Type} [Field α]

/-- C6: when `Update` on some input has completed, returning `out` and leaving the
state `s`, a second `Update` with the same input from `s` returns `out` again and
leaves `s` again; and on every shape-consistent state the call completes. -/
theorem Update_twice (exp : α → α) (nn : NeuralNetwork α) (inputs : List α) :
    (∀ r, Update exp nn inputs = some r → Update exp r.1 inputs = some r) ∧
    (WellShaped nn → ∃ r, Update exp nn inputs = some r) :=
  ⟨fun r hr => Update_idem exp nn inputs r hr, Update_total exp nn inputs⟩

/-- Witness of C6: `exampleNet` with the input `[0, 1]` and the real exponential. -/
theorem Update_twice_witness :
    ∃ r, Update Real.exp (exampleNet ℝ) [0, 1] = some r ∧
      Update Real.exp r.1 [0, 1] = some r := by
  have h := Update_twice Real.exp (exampleNet ℝ) [0, 1]
  obtain ⟨r, hr⟩ := h.2 (by decide)
  exact ⟨r, hr, h.1 r hr⟩

/-- Total-correctness rule for a loop over the elements of a slice. -/
theorem foldlM_total {σ β : Type} (P : σ → Prop) (f : σ → β → Option σ) :
    ∀ (l : List β) (s : σ), P s →
      (∀ u b, b ∈ l → P u → ∃ v, f u b = some v ∧ P v) →
      ∃ t, l.foldlM f s = some t ∧ P t := by
  intro l
  induction l with
  | nil =>
    intro s h0 _
    exact ⟨s, rfl, h0⟩
  | cons b bs ih =>
    intro s h0 hstep
    obtain ⟨v, hv, hPv⟩ := hstep s b (List.mem_cons_self b bs) h0
    obtain ⟨t, ht, hPt⟩ := ih v hPv (fun u c hc => hstep u c (List.mem_cons_of_mem b hc))
    exact ⟨t, by rw [List.foldlM_cons, hv]; exact ht, hPt⟩

/-- On a shape-consistent state, `Test` on patterns that each hold an input and a
target completes. -/
theorem Test_total (exp : α → α) (nn : NeuralNetwork α)
    (patterns : List (List (List α))) (hws : WellShaped nn)
    (hp : ∀ p ∈ patterns, 2 ≤ p.length) : ∃ r, Test exp nn patterns = some r := by
  unfold Test
  obtain ⟨t, ht, _⟩ := foldlM_total
    (fun (st : NeuralNetwork α × List (List α × List α × List α)) => WellShaped st.1)
    (fun st p =>
      (p[0]?).bind fun p0 => (Update exp st.1 p0).bind fun r =>
      (p[1]?).bind fun p1 => some (r.1, st.2 ++ [(p0, r.2, p1)]))
    patterns (nn, []) hws
    (by
      intro u p hmem hu
      have hp2 := hp p hmem
      have e0 : p[0]? = some p[0] := List.getElem?_eq_getElem (by omega)
      have e1 : p[1]? = some p[1] := List.getElem?_eq_getElem (by omega)
      obtain ⟨r, hr⟩ := Update_total exp u.1 p[0] hu
      exact ⟨(r.1, u.2 ++ [(p[0], r.2, p[1])]),
        by beta_reduce; rw [e0, Option.some_bind, hr, Option.some_bind, e1, Option.some_bind],
        Update_wellShaped exp u.1 p[0] r hr hu⟩)
  exact ⟨t, ht⟩

/-- C7: a completed `Update`, on an input of any length, leaves both weight matrices
and both momentum matrices as they were; so does a completed `Test`, on any list of
patterns. On a shape-consistent state both complete (`Test` when every pattern holds
an input and a target). -/
theorem Update_and_Test_keep_weights (exp : α → α) (nn : NeuralNetwork α)
    (inputs : List α) (patterns : List (List (List α))) :
    (∀ r, Update exp nn inputs = some r →
      r.1.wi = nn.wi ∧ r.1.wo = nn.wo ∧ r.1.ci = nn.ci ∧ r.1.co = nn.co) ∧
    (∀ r, Test exp nn patterns = some r →
      r.1.wi = nn.wi ∧ r.1.wo = nn.wo ∧ r.1.ci = nn.ci ∧ r.1.co = nn.co) ∧
    (WellShaped nn → (∀ p ∈ patterns, 2 ≤ p.length) →
      (∃ r, Update exp nn inputs = some r) ∧ ∃ r, Test exp nn patterns = some r) :=
  ⟨fun r hr => (Update_frame exp nn inputs r hr).2,
    fun r hr => (Test_frame exp nn patterns r hr).1.2,
    fun hws hp => ⟨Update_total exp nn inputs hws, Test_total exp nn patterns hws hp⟩⟩

/-- Witness of C7: `exampleNet` with the real exponential, the input `[0, 1]` and
the patterns `([0, 1], [1])`, `([1, 1], [0])`. -/
theorem Update_and_Test_keep_weights_witness :
    (∃ r, Update Real.exp (exampleNet ℝ) [0, 1] = some r ∧
      r.1.wi = (exampleNet ℝ).wi ∧ r.1.wo = (exampleNet ℝ).wo ∧
      r.1.ci = (exampleNet ℝ).ci ∧ r.1.co = (exampleNet ℝ).co) ∧
    (∃ r, Test Real.exp (exampleNet ℝ) [[[0, 1], [1]], [[1, 1], [0]]] = some r ∧
      r.1.wi = (exampleNet ℝ).wi ∧ r.1.wo = (exampleNet ℝ).wo ∧
      r.1.ci = (exampleNet ℝ).ci ∧ r.1.co = (exampleNet ℝ).co) := by
  have h := Update_and_Test_keep_weights Real.exp (exampleNet ℝ) [0, 1]
    [[[0, 1], [1]], [[1, 1], [0]]]
  obtain ⟨⟨r1, h1⟩, ⟨r2, h2⟩⟩ := h.2.2 (by decide) (by decide)
  exact ⟨⟨r1, h1, h.1 r1 h1⟩, ⟨r2, h2, h.2.1 r2 h2⟩⟩

end ForwardClaims

/-! ## The training loop: what `Train` returns -/

section TrainClaims

variable {α : Type} [Field α]

/-- The value the specification gives iteration `k`: with `sk` the state left by the
first `k` iterations, the sum of the errors of one more iteration from `sk`. -/
theorem specTrain_value (exp : α → α) (lRate mFactor : α)
    (patterns : List (List (List α))) (nn : NeuralNetwork α) :
    ∀ (N : Nat) (r : NeuralNetwork α × List α),
      specTrain exp lRate mFactor patterns N nn = some r →
      ∀ k, k < N → ∃ sk ek, specTrain exp lRate mFactor patterns k nn = some sk ∧
        specEpoch exp lRate mFactor sk.1 patterns = some ek ∧
        r.2[k]? = some ek.2.sum := by
  intro N
  induction N with
  | zero =>
    intro r _ k hk
    exact absurd hk (Nat.not_lt_zero k)
  | succ n ih =>
    intro r hr k hk
    rw [specTrain_succ] at hr
    obtain ⟨sn, hsn, hr⟩ := Option.bind_eq_some.mp hr
    obtain ⟨en, hen, hr⟩ := Option.bind_eq_some.mp hr
    have hlen := specTrain_length exp lRate mFactor patterns n nn sn hsn
    rw [← Option.some.inj hr]
    by_cases hkn : k = n
    · subst hkn
      refine ⟨sn, en, hsn, hen, ?_⟩
      show (sn.2 ++ [en.2.sum])[k]? = _
      rw [List.getElem?_append_right (by omega)]
      simp [hlen]
    · obtain ⟨sk, ek, h1, h2, h3⟩ := ih sn hsn k (by omega)
      refine ⟨sk, ek, h1, h2, ?_⟩
      show (sn.2 ++ [en.2.sum])[k]? = _
      rw [List.getElem?_append_left (by omega), h3]

/-- C9: for every iteration count `N ≥ 0`, `Train` is the training loop of the
specification `specTrain`: `N` iterations, the `k`-th one starting from the state
iteration `k - 1` left and yielding the sum, over the examples in the order given, of
the error `BackPropagate` returns on the target right after `Update` on the input. A
completed `Train` returns exactly `N` values, and its value of index `k` is that sum,
taken from the state `sk` the first `k` iterations leave; on a shape-consistent state,
with examples that each hold an input and a target, `Train` completes. -/
theorem Train_refines_spec (exp : α → α) (nn : NeuralNetwork α)
    (patterns : List (List (List α))) (N : Int) (lRate mFactor : α) (hN : 0 ≤ N) :
    Train exp nn patterns N lRate mFactor =
      specTrain exp lRate mFactor patterns N.toNat nn ∧
    (∀ r, Train exp nn patterns N lRate mFactor = some r →
      (r.2.length : Int) = N ∧
      ∀ k, k < N.toNat → ∃ sk ek,
        specTrain exp lRate mFactor patterns k nn = some sk ∧
        specEpoch exp lRate mFactor sk.1 patterns = some ek ∧
        r.2[k]? = some ek.2.sum) ∧
    (WellShaped nn → (∀ p ∈ patterns, 2 ≤ p.length) →
      ∃ r, Train exp nn patterns N lRate mFactor = some r) := by
  have heq := Train_eq_specTrain exp nn patterns N lRate mFactor hN
  refine ⟨heq, ?_, ?_⟩
  · intro r hr
    rw [heq] at hr
    refine ⟨?_, specTrain_value exp lRate mFactor patterns nn _ r hr⟩
    rw [specTrain_length exp lRate mFactor patterns _ nn r hr]
    omega
  · intro hws hp
    rw [heq]
    exact specTrain_total exp lRate mFactor patterns hp _ nn hws

/-- Witness of C9: three iterations over the XOR examples from `exampleNet`, with the
real exponential. -/
theorem Train_refines_spec_witness :
    ∃ r, Train Real.exp (exampleNet ℝ)
        [[[0, 0], [0]], [[0, 1], [1]], [[1, 0], [1]], [[1, 1], [0]]] 3 (1 / 2) (1 / 10) =
        some r ∧
      specTrain Real.exp (1 / 2) (1 / 10)
        [[[0, 0], [0]], [[0, 1], [1]], [[1, 0], [1]], [[1, 1], [0]]] 3 (exampleNet ℝ) =
        some r ∧
      (r.2.length : Int) = 3 := by
  have h := Train_refines_spec Real.exp (exampleNet ℝ)
    [[[0, 0], [0]], [[0, 1], [1]], [[1, 0], [1]], [[1, 1], [0]]] 3 (1 / 2) (1 / 10)
    (by decide)
  obtain ⟨r, hr⟩ := h.2.2 (by decide) (by decide)
  exact ⟨r, hr, by rw [← hr, h.1]; rfl, (h.2.1 r hr).1⟩

end TrainClaims

/-! ## The forward pass: the values `Update` leaves -/

section ForwardValues

variable {α : Type} [Field α]

/-- On a shape-consistent state and an input of length `ni - 1`, `Update` completes;
the input activations it leaves are the input followed by the value `b` the bias
slot held, each non-bias hidden activation is the logistic function of the weighted
sum of these, and each output returned is the weighted sum of the hidden activations
left, through the logistic function unless the network is a regression. -/
theorem Update_values (exp : α → α) (nn : NeuralNetwork α) (hws : WellShaped nn)
    (inputs : List α) (hlen : (inputs.length : Int) = nn.ni - 1) :
    ∃ r b, Update exp nn inputs = some r ∧ nn.ai[inputs.length]? = some b ∧
      r.1.ai = inputs ++ [b] ∧
      (∀ h, h < nn.nh.toNat - 1 → r.1.ah[h]? = some (sigmoid exp
        (∑ j ∈ Finset.range nn.ni.toNat,
          ((inputs ++ [b])[j]?).getD 0 * (getAt nn.wi j h).getD 0))) ∧
      (∀ o, o < nn.no.toNat → r.2[o]? = some
        (if nn.regression then
          ∑ j ∈ Finset.range nn.nh.toNat, (r.1.ah[j]?).getD 0 * (getAt nn.wo j o).getD 0
        else sigmoid exp
          (∑ j ∈ Finset.range nn.nh.toNat,
            (r.1.ah[j]?).getD 0 * (getAt nn.wo j o).getD 0))) := by
  obtain ⟨r, hr⟩ := Update_total exp nn inputs hws
  obtain ⟨⟨hni0, hni1⟩, ⟨hnh0, hnh1⟩, _, hai, _⟩ := hws
  have hw1 : wrapInt (nn.ni - 1) = nn.ni - 1 := wrapInt_of_range _ (by omega) (by omega)
  have hw2 : wrapInt (nn.nh - 1) = nn.nh - 1 := wrapInt_of_range _ (by omega) (by omega)
  obtain ⟨h1, ⟨l1, _, _⟩, hlo, hhi, hah, _, hao⟩ :=
    Update_spec exp nn inputs (by rw [hw1]; exact hlen) r hr
  have hlt : inputs.length < nn.ai.length := by omega
  have hai2 : r.1.ai = inputs ++ [nn.ai[inputs.length]] := by
    apply List.ext_getElem?
    intro i
    by_cases hi : i < inputs.length
    · rw [hlo i hi, List.getElem?_append_left hi]
    · rw [hhi i (by omega), List.getElem?_append_right (by omega)]
      by_cases hie : i = inputs.length
      · subst hie
        simp
      · rw [List.getElem?_eq_none (by omega), List.getElem?_eq_none (by simp; omega)]
  refine ⟨r, nn.ai[inputs.length], hr, List.getElem?_eq_getElem hlt, hai2, ?_, ?_⟩
  · intro h hh
    have := hah h (by rw [hw2]; omega)
    rw [hai2] at this
    exact this
  · intro o ho
    rw [h1]
    exact hao o ho

end ForwardValues

/-! ## Invariants of every sequence of calls -/

section StepInvariants

variable {α : Type} [Field α]

theorem specEpoch_preserves (exp : α → α) (lRate mFactor : α)
    (P : NeuralNetwork α → Prop)
    (hU : ∀ s inputs r, P s → Update exp s inputs = some r → P r.1)
    (hB : ∀ s targets l m r, P s → BackPropagate s targets l m = some r → P r.1) :
    ∀ (ps : List (List (List α))) (nn : NeuralNetwork α) (r : NeuralNetwork α × List α),
      specEpoch exp lRate mFactor nn ps = some r → P nn → P r.1 := by
  intro ps
  induction ps with
  | nil =>
    intro nn r h hP
    simp only [specEpoch, Option.some.injEq] at h
    rw [← h]; exact hP
  | cons p ps ih =>
    intro nn r h hP
    rw [specEpoch_cons] at h
    obtain ⟨p0, _, h⟩ := Option.bind_eq_some.mp h
    obtain ⟨p1, _, h⟩ := Option.bind_eq_some.mp h
    obtain ⟨r1, h1, h⟩ := Option.bind_eq_some.mp h
    obtain ⟨r2, h2, h⟩ := Option.bind_eq_some.mp h
    obtain ⟨r3, h3, h⟩ := Option.bind_eq_some.mp h
    rw [← Option.some.inj h]
    exact ih r2.1 r3 h3 (hB r1.1 p1 lRate mFactor r2 (hU nn p0 r1 hP h1) h2)

/-- What `Update` and `BackPropagate` preserve, `Train` preserves. -/
theorem Train_preserves (exp : α → α) (P : NeuralNetwork α → Prop)
    (hU : ∀ s inputs r, P s → Update exp s inputs = some r → P r.1)
    (hB : ∀ s targets l m r, P s → BackPropagate s targets l m = some r → P r.1)
    (nn : NeuralNetwork α) (patterns : List (List (List α))) (iterations : Int)
    (lRate mFactor : α) (r : NeuralNetwork α × List α)
    (h : Train exp nn patterns iterations lRate mFactor = some r) (hP : P nn) :
    P r.1 := by
  have hN := Train_nonneg exp nn patterns iterations lRate mFactor r h
  rw [Train_eq_specTrain exp nn patterns iterations lRate mFactor hN] at h
  generalize iterations.toNat = k at h
  induction k generalizing r with
  | zero =>
    simp only [specTrain, Option.some.injEq] at h
    rw [← h]; exact hP
  | succ j ih =>
    rw [specTrain_succ] at h
    obtain ⟨a, ha, h⟩ := Option.bind_eq_some.mp h
    obtain ⟨b, hb, h⟩ := Option.bind_eq_some.mp h
    rw [← Option.some.inj h]
    exact specEpoch_preserves exp lRate mFactor P hU hB patterns a.1 b hb (ih a ha)

/-- What `Update` preserves, `Test` preserves. -/
theorem Test_preserves (exp : α → α) (P : NeuralNetwork α → Prop)
    (hU : ∀ s inputs r, P s → Update exp s inputs = some r → P r.1)
    (nn : NeuralNetwork α) (patterns : List (List (List α)))
    (r : NeuralNetwork α × List (List α × List α × List α))
    (h : Test exp nn patterns = some r) (hP : P nn) : P r.1 := by
  unfold Test at h
  apply foldlM_some_inv
    (fun (st : NeuralNetwork α × List (List α × List α × List α)) => P st.1)
    _ patterns (nn, []) r h hP
  intro u v p _ hu hstep
  obtain ⟨p0, _, hstep⟩ := Option.bind_eq_some.mp hstep
  obtain ⟨r1, h1, hstep⟩ := Option.bind_eq_some.mp hstep
  obtain ⟨p1, _, hstep⟩ := Option.bind_eq_some.mp hstep
  rw [← Option.some.inj hstep]
  exact hU u.1 p0 r1 hu h1

/-- Induction over a sequence of calls: a property of the first state that `Update`
and `BackPropagate` preserve holds of every state the sequence goes through. -/
theorem Steps_inv (exp : α → α) (P : NeuralNetwork α → Prop)
    (hU : ∀ s inputs r, P s → Update exp s inputs = some r → P r.1)
    (hB : ∀ s targets l m r, P s → BackPropagate s targets l m = some r → P r.1)
    (s t : NeuralNetwork α) (h : Steps exp s t) (hP : P s) : P t := by
  induction h with
  | refl => exact hP
  | update t inputs r _ hr ih => exact hU t inputs r ih hr
  | backPropagate t targets lRate mFactor r _ hr ih =>
    exact hB t targets lRate mFactor r ih hr
  | train t patterns iterations lRate mFactor r _ hr ih =>
    exact Train_preserves exp P hU hB t patterns iterations lRate mFactor r hr ih
  | test t patterns r _ hr ih => exact Test_preserves exp P hU t patterns r hr ih

/-- A reachable state is a state left by a sequence of calls started on a network
that `New` built. -/
theorem Reachable_iff_Steps (exp : α → α) (nn : NeuralNetwork α) :
    Reachable exp nn ↔
      ∃ (draws : Nat → α) (ni nh no : Int) (regression : Bool) (nn0 : NeuralNetwork α),
        (0 ≤ ni ∧ ni < 2 ^ 63) ∧ (0 ≤ nh ∧ nh < 2 ^ 63) ∧ (0 ≤ no ∧ no < 2 ^ 63) ∧
        New draws ni nh no regression = some nn0 ∧ Steps exp nn0 nn := by
  constructor
  · intro h
    induction h with
    | new draws ni nh no regression nn a1 a2 a3 a4 a5 a6 hnew =>
      exact ⟨draws, ni, nh, no, regression, nn, ⟨a1, a2⟩, ⟨a3, a4⟩, ⟨a5, a6⟩, hnew,
        Steps.refl nn⟩
    | update nn inputs r _ hr ih =>
      obtain ⟨d, a, b, c, g, nn0, h1, h2, h3, h4, h5⟩ := ih
      exact ⟨d, a, b, c, g, nn0, h1, h2, h3, h4, Steps.update nn0 nn inputs r h5 hr⟩
    | backPropagate nn targets lRate mFactor r _ hr ih =>
      obtain ⟨d, a, b, c, g, nn0, h1, h2, h3, h4, h5⟩ := ih
      exact ⟨d, a, b, c, g, nn0, h1, h2, h3, h4,
        Steps.backPropagate nn0 nn targets lRate mFactor r h5 hr⟩
    | train nn patterns iterations lRate mFactor r _ hr ih =>
      obtain ⟨d, a, b, c, g, nn0, h1, h2, h3, h4, h5⟩ := ih
      exact ⟨d, a, b, c, g, nn0, h1, h2, h3, h4,
        Steps.train nn0 nn patterns iterations lRate mFactor r h5 hr⟩
    | test nn patterns r _ hr ih =>
      obtain ⟨d, a, b, c, g, nn0, h1, h2, h3, h4, h5⟩ := ih
      exact ⟨d, a, b, c, g, nn0, h1, h2, h3, h4, Steps.test nn0 nn patterns r h5 hr⟩
  · rintro ⟨d, a, b, c, g, nn0, ⟨a1, a2⟩, ⟨a3, a4⟩, ⟨a5, a6⟩, hnew, hsteps⟩
    induction hsteps with
    | refl => exact Reachable.new d a b c g nn0 a1 a2 a3 a4 a5 a6 hnew
    | update t inputs r _ hr ih => exact Reachable.update t inputs r ih hr
    | backPropagate t targets lRate mFactor r _ hr ih =>
      exact Reachable.backPropagate t targets lRate mFactor r ih hr
    | train t patterns iterations lRate mFactor r _ hr ih =>
      exact Reachable.train t patterns iterations lRate mFactor r ih hr
    | test t patterns r _ hr ih => exact Reachable.test t patterns r ih hr

end StepInvariants

/-! ## Construction -/

section Construction

variable {α : Type} [Field α]

/-- The matrix `matrix(I, J)` returns: `I` rows of `J` zeros. -/
theorem matrix_eq (I J : Int) (m : List (List α)) (h : matrix I J = some m) :
    0 ≤ I ∧ m = List.replicate I.toNat (List.replicate J.toNat (0 : α)) := by
  unfold matrix makeSlice at h
  by_cases hI : I < 0
  · rw [if_pos hI] at h
    cases h
  · rw [if_neg hI, Option.some_bind] at h
    refine ⟨by omega, ?_⟩
    obtain ⟨_, hlen, hlo, _⟩ := setLoop_some
      (fun _ => if J < 0 then none else some (List.replicate J.toNat (0 : α))) I.toNat _ m h
    rw [List.length_replicate] at hlen
    apply List.ext_getElem?
    intro i
    rw [List.getElem?_replicate]
    split
    · rename_i hi
      have h1 := hlo i hi
      by_cases hJ : J < 0
      · rw [if_pos hJ, List.getElem?_eq_getElem (by omega)] at h1
        cases h1
      · rw [if_neg hJ] at h1
        exact h1
    · exact List.getElem?_eq_none (by omega)

/-- One row of `fillRandom`: the inner loop over `j < J` for a fixed `i`, started with
`ka` draws made. -/
theorem fillRow_some (draws : Nat → α) (i J : Nat) (ma mb : List (List α)) (ka kb : Nat)
    (h : forLoop (fun j (st : List (List α) × Nat) =>
      (setAt st.1 i j (random (-1) 1 (draws st.2))).bind fun m => some (m, st.2 + 1))
      J (ma, ka) = some (mb, kb)) :
    kb = ka + J ∧ mb.map List.length = ma.map List.length ∧
    (∀ b, b < J → getAt mb i b = some (random (-1) 1 (draws (ka + b)))) ∧
    (∀ a b, ¬ (a = i ∧ b < J) → getAt mb a b = getAt ma a b) := by
  have key := forLoop_some_inv
    (fun k (st : List (List α) × Nat) =>
      st.2 = ka + k ∧ st.1.map List.length = ma.map List.length ∧
      (∀ b, b < k → getAt st.1 i b = some (random (-1) 1 (draws (ka + b)))) ∧
      (∀ a b, ¬ (a = i ∧ b < k) → getAt st.1 a b = getAt ma a b))
    _ J (ma, ka) (mb, kb) h
    ⟨rfl, rfl, fun b hb => absurd hb (Nat.not_lt_zero b), fun _ _ _ => rfl⟩
  apply key
  intro k u v _ hP hb
  obtain ⟨hk, hs, hdone, hframe⟩ := hP
  obtain ⟨m, hm, hb⟩ := Option.bind_eq_some.mp hb
  cases Option.some.inj hb
  refine ⟨by show u.2 + 1 = _; omega, by show m.map List.length = _; rw [setAt_shape hm, hs],
    ?_, ?_⟩
  · intro b hb
    show getAt m i b = _
    rw [getAt_setAt hm]
    by_cases hbk : b = k
    · subst hbk
      rw [if_pos ⟨rfl, rfl⟩, hk]
    · rw [if_neg (by omega)]
      exact hdone b (by omega)
  · intro a b hab
    show getAt m a b = _
    rw [getAt_setAt hm, if_neg (by omega)]
    exact hframe a b (by omega)

/-- What a completed `fillRandom` leaves: the shape is kept, the cell `(i, j)` holds
`random(-1, 1)` of the draw number `k0 + i * J + j`, and `I * J` draws were made. -/
theorem fillRandom_some (draws : Nat → α) (I J : Int) (m0 m : List (List α))
    (k0 k : Nat) (h : fillRandom draws I J (m0, k0) = some (m, k)) :
    k = k0 + I.toNat * J.toNat ∧ m.map List.length = m0.map List.length ∧
    (∀ a b, a < I.toNat → b < J.toNat →
      getAt m a b = some (random (-1) 1 (draws (k0 + a * J.toNat + b)))) ∧
    (∀ a b, ¬ (a < I.toNat ∧ b < J.toNat) → getAt m a b = getAt m0 a b) := by
  unfold fillRandom at h
  have key := forLoop_some_inv
    (fun n (st : List (List α) × Nat) =>
      st.2 = k0 + n * J.toNat ∧ st.1.map List.length = m0.map List.length ∧
      (∀ a b, a < n → b < J.toNat →
        getAt st.1 a b = some (random (-1) 1 (draws (k0 + a * J.toNat + b)))) ∧
      (∀ a b, ¬ (a < n ∧ b < J.toNat) → getAt st.1 a b = getAt m0 a b))
    _ I.toNat (m0, k0) (m, k) h
    ⟨by simp, rfl, fun a _ ha => absurd ha (Nat.not_lt_zero a), fun _ _ _ => rfl⟩
  apply key
  intro n u v _ hP hb
  obtain ⟨hk, hs, hdone, hframe⟩ := hP
  obtain ⟨hk2, hs2, hrow, hrest⟩ := fillRow_some draws n J.toNat u.1 v.1 u.2 v.2 hb
  refine ⟨by rw [hk2, hk, Nat.add_mul, Nat.one_mul, Nat.add_assoc], by rw [hs2, hs], ?_, ?_⟩
  · intro a b ha hb2
    by_cases han : a = n
    · subst han
      rw [hrow b hb2, hk]
    · rw [hrest a b (by omega)]
      exact hdone a b (by omega) hb2
  · intro a b hab
    rw [hrest a b (by omega)]
    exact hframe a b (by omega)

theorem wrapInt_succ (x : Int) (h0 : 0 ≤ x) (h1 : x < 2 ^ 63) (h2 : 0 ≤ wrapInt (x + 1)) :
    wrapInt (x + 1) = x + 1 ∧ x + 1 < 2 ^ 63 := by
  unfold wrapInt at h2 ⊢
  omega

/-- Everything a completed `New` returns, for counts that are non-negative values of
a Go `int`. -/
theorem New_some (draws : Nat → α) (ni nh no : Int) (regression : Bool)
    (nn : NeuralNetwork α) (hni : 0 ≤ ni ∧ ni < 2 ^ 63) (hnh : 0 ≤ nh ∧ nh < 2 ^ 63)
    (h : New draws ni nh no regression = some nn) :
    (ni + 1 < 2 ^ 63 ∧ nh + 1 < 2 ^ 63 ∧ 0 ≤ no) ∧
    (nn.ni = ni + 1 ∧ nn.nh = nh + 1 ∧ nn.no = no ∧ nn.regression = regression) ∧
    (nn.ai = List.replicate (ni + 1).toNat 1 ∧ nn.ah = List.replicate (nh + 1).toNat 1 ∧
      nn.ao = List.replicate no.toNat 1) ∧
    (nn.ci = List.replicate (ni + 1).toNat (List.replicate (nh + 1).toNat 0) ∧
      nn.co = List.replicate (nh + 1).toNat (List.replicate no.toNat 0)) ∧
    (nn.wi.map List.length = List.replicate (ni + 1).toNat (nh + 1).toNat ∧
      nn.wo.map List.length = List.replicate (nh + 1).toNat no.toNat) ∧
    (∀ i j, i < (ni + 1).toNat → j < (nh + 1).toNat →
      getAt nn.wi i j = some (random (-1) 1 (draws (i * (nh + 1).toNat + j)))) ∧
    (∀ i j, i < (nh + 1).toNat → j < no.toNat →
      getAt nn.wo i j = some (random (-1) 1
        (draws ((ni + 1).toNat * (nh + 1).toNat + i * no.toNat + j)))) := by
  unfold New at h
  simp only at h
  obtain ⟨ai, hai, h⟩ := Option.bind_eq_some.mp h
  obtain ⟨ah, hah, h⟩ := Option.bind_eq_some.mp h
  obtain ⟨ao, hao, h⟩ := Option.bind_eq_some.mp h
  obtain ⟨wi0, hwi0, h⟩ := Option.bind_eq_some.mp h
  obtain ⟨wo0, hwo0, h⟩ := Option.bind_eq_some.mp h
  obtain ⟨r1, hr1, h⟩ := Option.bind_eq_some.mp h
  obtain ⟨r2, hr2, h⟩ := Option.bind_eq_some.mp h
  obtain ⟨ci, hci, h⟩ := Option.bind_eq_some.mp h
  obtain ⟨co, hco, h⟩ := Option.bind_eq_some.mp h
  rw [← Option.some.inj h]
  obtain ⟨p1, rfl⟩ := vector_some _ _ _ hai
  obtain ⟨p2, rfl⟩ := vector_some _ _ _ hah
  obtain ⟨p3, rfl⟩ := vector_some _ _ _ hao
  obtain ⟨e1, b1⟩ := wrapInt_succ ni hni.1 hni.2 p1
  obtain ⟨e2, b2⟩ := wrapInt_succ nh hnh.1 hnh.2 p2
  simp only [e1, e2] at hwi0 hwo0 hr1 hr2 hci hco
  obtain ⟨_, rfl⟩ := matrix_eq _ _ _ hwi0
  obtain ⟨_, rfl⟩ := matrix_eq _ _ _ hwo0
  obtain ⟨_, rfl⟩ := matrix_eq _ _ _ hci
  obtain ⟨_, rfl⟩ := matrix_eq _ _ _ hco
  obtain ⟨k1, s1, c1, _⟩ := fillRandom_some draws _ _ _ r1.1 0 r1.2 hr1
  obtain ⟨_, s2, c2, _⟩ := fillRandom_some draws _ _ _ r2.1 r1.2 r2.2 hr2
  rw [e1, e2]
  refine ⟨⟨b1, b2, p3⟩, ⟨rfl, rfl, rfl, rfl⟩, ⟨rfl, rfl, rfl⟩, ⟨rfl, rfl⟩, ⟨?_, ?_⟩, ?_, ?_⟩
  · rw [s1]; simp
  · rw [s2]; simp
  · intro i j hi hj
    rw [c1 i j hi hj, Nat.zero_add]
  · intro i j hi hj
    rw [c2 i j hi hj, k1, Nat.zero_add]

end Construction

/-! ## Invariants of the states built by `New` -/

section BuiltInvariants

variable {α : Type} [Field α]

/-- `Update` leaves the two bias slots, the last of `ai` and of `ah`, as they were. -/
theorem Update_bias (exp : α → α) (nn : NeuralNetwork α) (inputs : List α)
    (r : NeuralNetwork α × List α) (hr : Update exp nn inputs = some r)
    (hws : WellShaped nn) :
    r.1.ai[(nn.ni - 1).toNat]? = nn.ai[(nn.ni - 1).toNat]? ∧
    r.1.ah[(nn.nh - 1).toNat]? = nn.ah[(nn.nh - 1).toNat]? := by
  by_cases hlen : (inputs.length : Int) = wrapInt (nn.ni - 1)
  · obtain ⟨⟨hni0, hni1⟩, ⟨hnh0, hnh1⟩, _⟩ := hws
    have hw1 : wrapInt (nn.ni - 1) = nn.ni - 1 := wrapInt_of_range _ (by omega) (by omega)
    have hw2 : wrapInt (nn.nh - 1) = nn.nh - 1 := wrapInt_of_range _ (by omega) (by omega)
    obtain ⟨_, _, _, hai, _, hah, _⟩ := Update_spec exp nn inputs hlen r hr
    exact ⟨hai _ (by omega), hah _ (by rw [hw2])⟩
  · rw [Update_of_length_ne exp nn inputs hlen] at hr
    cases hr
    exact ⟨rfl, rfl⟩

/-- The invariant of a network built by `New(ni, nh, no, regression)`: through every
sequence of calls the sizes and the mode are those of the construction, the state is
shape-consistent and both bias slots hold `1`. -/
theorem built_invariant (exp : α → α) (draws : Nat → α) (ni nh no : Int)
    (regression : Bool) (nn0 nn : NeuralNetwork α)
    (hni : 0 ≤ ni ∧ ni < 2 ^ 63) (hnh : 0 ≤ nh ∧ nh < 2 ^ 63)
    (hno : 0 ≤ no ∧ no < 2 ^ 63)
    (hnew : New draws ni nh no regression = some nn0) (hsteps : Steps exp nn0 nn) :
    (nn.ni = ni + 1 ∧ nn.nh = nh + 1 ∧ nn.no = no ∧ nn.regression = regression) ∧
    WellShaped nn ∧ nn.ai[ni.toNat]? = some 1 ∧ nn.ah[nh.toNat]? = some 1 := by
  apply Steps_inv exp
    (fun s => (s.ni = ni + 1 ∧ s.nh = nh + 1 ∧ s.no = no ∧ s.regression = regression) ∧
      WellShaped s ∧ s.ai[ni.toNat]? = some 1 ∧ s.ah[nh.toNat]? = some 1)
    ?_ ?_ nn0 nn hsteps ?_
  · intro s inputs r hP hr
    obtain ⟨⟨a1, a2, a3, a4⟩, hws, b1, b2⟩ := hP
    obtain ⟨⟨e1, e2, e3, e4⟩, _⟩ := Update_frame exp s inputs r hr
    obtain ⟨c1, c2⟩ := Update_bias exp s inputs r hr hws
    have i1 : (s.ni - 1).toNat = ni.toNat := by rw [a1]; congr 1; omega
    have i2 : (s.nh - 1).toNat = nh.toNat := by rw [a2]; congr 1; omega
    rw [i1] at c1
    rw [i2] at c2
    exact ⟨⟨e1.trans a1, e2.trans a2, e3.trans a3, e4.trans a4⟩,
      Update_wellShaped exp s inputs r hr hws, c1.trans b1, c2.trans b2⟩
  · intro s targets l m r hP hr
    obtain ⟨⟨a1, a2, a3, a4⟩, hws, b1, b2⟩ := hP
    obtain ⟨⟨e1, e2, e3, e4⟩, e5, e6, _⟩ := BackPropagate_frame s targets l m r hr
    exact ⟨⟨e1.trans a1, e2.trans a2, e3.trans a3, e4.trans a4⟩,
      BackPropagate_wellShaped s targets l m r hr hws, by rw [e5]; exact b1,
      by rw [e6]; exact b2⟩
  · obtain ⟨_, hsz, ⟨hai, hah, _⟩, _⟩ := New_some draws ni nh no regression nn0 hni hnh hnew
    refine ⟨hsz, New_wellShaped draws ni nh no regression nn0 hno.2 hnew, ?_, ?_⟩
    · rw [hai, List.getElem?_replicate, if_pos (by omega)]
    · rw [hah, List.getElem?_replicate, if_pos (by omega)]

/-- C11: on every network built by `New` from counts that are non-negative values of
a Go `int`, after every finite sequence of completed `Update`, `BackPropagate`,
`Train` and `Test` calls with arbitrary arguments, the slot of index `inputCount` of
the input activations and the slot of index `hiddenCount` of the hidden activations
both hold exactly `1.0`. -/
theorem bias_slots_hold_one (exp : α → α) (draws : Nat → α) (ni nh no : Int)
    (regression : Bool) (nn0 nn : NeuralNetwork α)
    (hni : 0 ≤ ni ∧ ni < 2 ^ 63) (hnh : 0 ≤ nh ∧ nh < 2 ^ 63)
    (hno : 0 ≤ no ∧ no < 2 ^ 63)
    (hnew : New draws ni nh no regression = some nn0) (hsteps : Steps exp nn0 nn) :
    nn.ai[ni.toNat]? = some 1 ∧ nn.ah[nh.toNat]? = some 1 :=
  (built_invariant exp draws ni nh no regression nn0 nn hni hnh hno hnew hsteps).2.2

/-- C12: on every network built by `New` from counts that are non-negative values of
a Go `int`, after every finite sequence of completed `Update`, `BackPropagate`,
`Train` and `Test` calls, the sizes and shapes are those of the construction:
`ni = inputCount + 1`, `nh = hiddenCount + 1`, `no = outputCount`; `wi` and `ci` have
`ni` rows of length `nh`, `wo` and `co` have `nh` rows of length `no`, and the
activation slices have the lengths `ni`, `nh`, `no`. -/
theorem shapes_stay_as_constructed (exp : α → α) (draws : Nat → α) (ni nh no : Int)
    (regression : Bool) (nn0 nn : NeuralNetwork α)
    (hni : 0 ≤ ni ∧ ni < 2 ^ 63) (hnh : 0 ≤ nh ∧ nh < 2 ^ 63)
    (hno : 0 ≤ no ∧ no < 2 ^ 63)
    (hnew : New draws ni nh no regression = some nn0) (hsteps : Steps exp nn0 nn) :
    (nn.ni = ni + 1 ∧ nn.nh = nh + 1 ∧ nn.no = no) ∧
    (nn.wi.map List.length = List.replicate (ni + 1).toNat (nh + 1).toNat ∧
      nn.ci.map List.length = List.replicate (ni + 1).toNat (nh + 1).toNat) ∧
    (nn.wo.map List.length = List.replicate (nh + 1).toNat no.toNat ∧
      nn.co.map List.length = List.replicate (nh + 1).toNat no.toNat) ∧
    (nn.ai.length = (ni + 1).toNat ∧ nn.ah.length = (nh + 1).toNat ∧
      nn.ao.length = no.toNat) := by
  obtain ⟨⟨a1, a2, a3, _⟩, hws, _⟩ :=
    built_invariant exp draws ni nh no regression nn0 nn hni hnh hno hnew hsteps
  obtain ⟨_, _, _, l1, l2, l3, s1, s2, s3, s4⟩ := hws
  simp only [a1, a2, a3] at s1 s2 s3 s4 l1 l2 l3
  exact ⟨⟨a1, a2, a3⟩, ⟨s1, s3⟩, ⟨s2, s4⟩, l1, l2, l3⟩

/-- C14: on every network built by `New` from counts that are non-negative values of
a Go `int` (zero hidden units or zero outputs included), after every finite sequence
of completed calls, `Update` on an input of length `inputCount` and `BackPropagate` on
a target of length `outputCount` complete: no index expression is out of range and no
allocation has a negative length, the panic `none` is not reached. -/
theorem Update_and_BackPropagate_in_range (exp : α → α) (draws : Nat → α)
    (ni nh no : Int) (regression : Bool) (nn0 nn : NeuralNetwork α)
    (hni : 0 ≤ ni ∧ ni < 2 ^ 63) (hnh : 0 ≤ nh ∧ nh < 2 ^ 63)
    (hno : 0 ≤ no ∧ no < 2 ^ 63)
    (hnew : New draws ni nh no regression = some nn0) (hsteps : Steps exp nn0 nn)
    (inputs targets : List α) (lRate mFactor : α)
    (hin : (inputs.length : Int) = ni) (htg : (targets.length : Int) = no) :
    (∃ r, Update exp nn inputs = some r ∧ (r.2.length : Int) = no) ∧
    (∃ r, BackPropagate nn targets lRate mFactor = some r) := by
  obtain ⟨⟨a1, _, a3, _⟩, hws, _⟩ :=
    built_invariant exp draws ni nh no regression nn0 nn hni hnh hno hnew hsteps
  obtain ⟨r, hr⟩ := Update_total exp nn inputs hws
  refine ⟨⟨r, hr, ?_⟩, BackPropagate_total nn targets lRate mFactor hws⟩
  have hw : wrapInt (nn.ni - 1) = nn.ni - 1 :=
    wrapInt_of_range _ (by rw [a1]; omega) (by rw [a1]; omega)
  obtain ⟨h1, ⟨_, _, h2⟩, _⟩ :=
    Update_spec exp nn inputs (by rw [hw, a1]; omega) r hr
  obtain ⟨_, _, ⟨hno0, _⟩, _, _, hao, _⟩ := hws
  rw [h1, h2, hao, ← a3]
  omega

end BuiltInvariants

/-! ## Witnesses of the invariants, and what `New` returns -/

section BuiltWitnesses

/-- Witness of C11: `exampleNet`, built by `New(2, 2, 1, false)`, after an `Update`
and a `BackPropagate`. -/
theorem bias_slots_hold_one_witness :
    ∃ r r2, Update Real.exp (exampleNet ℝ) [0, 1] = some r ∧
      BackPropagate r.1 [1] (1 / 2) (1 / 10) = some r2 ∧
      r2.1.ai[2]? = some 1 ∧ r2.1.ah[2]? = some 1 := by
  obtain ⟨r, hr⟩ := Update_total Real.exp (exampleNet ℝ) [0, 1] (by decide)
  obtain ⟨r2, hr2⟩ := BackPropagate_total r.1 [1] (1 / 2) (1 / 10)
    (Update_wellShaped Real.exp (exampleNet ℝ) [0, 1] r hr (by decide))
  exact ⟨r, r2, hr, hr2,
    bias_slots_hold_one Real.exp (fun _ => 1 / 2) 2 2 1 false (exampleNet ℝ) r2.1
      (by decide) (by decide) (by decide) New_exampleNet
      (Steps.backPropagate _ _ [1] (1 / 2) (1 / 10) r2
        (Steps.update _ _ [0, 1] r (Steps.refl _) hr) hr2)⟩

/-- Witness of C12: `exampleNet`, built by `New(2, 2, 1, false)`, after two training
iterations over two examples. -/
theorem shapes_stay_as_constructed_witness :
    ∃ r, Train Real.exp (exampleNet ℝ) [[[0, 1], [1]], [[1, 1], [0]]] 2 (1 / 2) (1 / 10) =
        some r ∧
      (r.1.ni = 3 ∧ r.1.nh = 3 ∧ r.1.no = 1) ∧
      (r.1.wi.map List.length = [3, 3, 3] ∧ r.1.ci.map List.length = [3, 3, 3]) ∧
      (r.1.wo.map List.length = [1, 1, 1] ∧ r.1.co.map List.length = [1, 1, 1]) ∧
      (r.1.ai.length = 3 ∧ r.1.ah.length = 3 ∧ r.1.ao.length = 1) := by
  have hT : ∃ r, Train Real.exp (exampleNet ℝ) [[[0, 1], [1]], [[1, 1], [0]]] 2
      (1 / 2) (1 / 10) = some r := by
    rw [Train_eq_specTrain _ _ _ _ _ _ (by decide)]
    exact specTrain_total Real.exp (1 / 2) (1 / 10) _ (by decide) _ _ (by decide)
  obtain ⟨r, hr⟩ := hT
  exact ⟨r, hr,
    shapes_stay_as_constructed Real.exp (fun _ => 1 / 2) 2 2 1 false (exampleNet ℝ) r.1
      (by decide) (by decide) (by decide) New_exampleNet
      (Steps.train _ _ _ 2 (1 / 2) (1 / 10) r (Steps.refl _) hr)⟩

/-- Witness of C14: the network `New(1, 0, 0, false)`, with no hidden unit and no
output, the input `[0]` and the empty target. -/
theorem Update_and_BackPropagate_in_range_witness :
    ∃ nn0 : NeuralNetwork ℝ, New (fun _ => (0 : ℝ)) 1 0 0 false = some nn0 ∧
      (∃ r, Update Real.exp nn0 [0] = some r ∧ (r.2.length : Int) = 0) ∧
      (∃ r, BackPropagate nn0 [] (1 / 2) (1 / 10) = some r) :=
  ⟨_, rfl,
    Update_and_BackPropagate_in_range Real.exp (fun _ => 0) 1 0 0 false _ _
      (by decide) (by decide) (by decide) rfl (Steps.refl _) [0] [] (1 / 2) (1 / 10)
      (by decide) (by decide)⟩

end BuiltWitnesses

/-! ## The forward pass: what `Update` computes -/

section ForwardLayers

variable {α : Type} [Field α]

/-- On every reachable state the input bias slot, the last of `ai`, holds `1`. -/
theorem Reachable_input_bias (exp : α → α) (nn : NeuralNetwork α)
    (h : Reachable exp nn) : nn.ai[(nn.ni - 1).toNat]? = some 1 := by
  obtain ⟨d, a, b, c, g, nn0, h1, h2, h3, h4, h5⟩ := (Reachable_iff_Steps exp nn).mp h
  obtain ⟨⟨e1, _⟩, _, hb, _⟩ := built_invariant exp d a b c g nn0 nn h1 h2 h3 h4 h5
  have hidx : (nn.ni - 1).toNat = a.toNat := by rw [e1]; congr 1; omega
  rw [hidx]
  exact hb

/-- C10: on every state reachable from `New`, shape-consistent as all of them are, and
more generally on every shape-consistent state whose input bias slot holds `1.0`, for
every input `x` of length `inputCount = ni - 1`, `Update` completes; the hidden
activation of each non-bias hidden unit `h` is `sigmoid(Σ_j a_j * wi[j][h])` over all
`ni` input slots, with `a` the input `x` followed by the bias `1.0`; and each returned
output `o` is `s_o = Σ_j ah_j * wo[j][o]` over all `nh` hidden slots when `regression`
is true, and `sigmoid(s_o)` otherwise. -/
theorem Update_computes_layers (exp : α → α) (nn : NeuralNetwork α) (inputs : List α)
    (hstate : Reachable exp nn ∨ (WellShaped nn ∧ nn.ai[inputs.length]? = some 1))
    (hlen : (inputs.length : Int) = nn.ni - 1) :
    ∃ r, Update exp nn inputs = some r ∧
      (∀ h, h < nn.nh.toNat - 1 → r.1.ah[h]? = some (sigmoid exp
        (∑ j ∈ Finset.range nn.ni.toNat,
          ((inputs ++ [1])[j]?).getD 0 * (getAt nn.wi j h).getD 0))) ∧
      (∀ o, o < nn.no.toNat → r.2[o]? = some
        (if nn.regression then
          ∑ j ∈ Finset.range nn.nh.toNat, (r.1.ah[j]?).getD 0 * (getAt nn.wo j o).getD 0
        else sigmoid exp
          (∑ j ∈ Finset.range nn.nh.toNat,
            (r.1.ah[j]?).getD 0 * (getAt nn.wo j o).getD 0))) := by
  have hboth : WellShaped nn ∧ nn.ai[inputs.length]? = some 1 := by
    rcases hstate with hr | hs
    · refine ⟨Reachable_wellShaped exp nn hr, ?_⟩
      have hb := Reachable_input_bias exp nn hr
      have hidx : (nn.ni - 1).toNat = inputs.length := by rw [← hlen]; rfl
      rw [hidx] at hb
      exact hb
    · exact hs
  obtain ⟨r, b, hr, hb, _, hah, hao⟩ := Update_values exp nn hboth.1 inputs hlen
  have hb1 : b = 1 := Option.some.inj (hb.symm.trans hboth.2)
  subst hb1
  exact ⟨r, hr, hah, hao⟩

/-- Witness of C10: `exampleNet`, built by `New(2, 2, 1, false)`, with the real
exponential and the input `[0, 1]`. -/
theorem Update_computes_layers_witness :
    Reachable Real.exp (exampleNet ℝ) ∧
    ((([0, 1] : List ℝ).length : Int) = (exampleNet ℝ).ni - 1) ∧
    ∃ r, Update Real.exp (exampleNet ℝ) [0, 1] = some r ∧
      (∀ h, h < 2 → r.1.ah[h]? = some (sigmoid Real.exp
        (∑ j ∈ Finset.range 3,
          ((([0, 1] : List ℝ) ++ [1])[j]?).getD 0 *
            (getAt (exampleNet ℝ).wi j h).getD 0))) ∧
      (∀ o, o < 1 → r.2[o]? = some (sigmoid Real.exp
        (∑ j ∈ Finset.range 3,
          (r.1.ah[j]?).getD 0 * (getAt (exampleNet ℝ).wo j o).getD 0))) := by
  have hreach : Reachable Real.exp (exampleNet ℝ) :=
    Reachable.new (fun _ => 1 / 2) 2 2 1 false (exampleNet ℝ) (by decide) (by decide)
      (by decide) (by decide) (by decide) (by decide) New_exampleNet
  exact ⟨hreach, by decide,
    Update_computes_layers Real.exp (exampleNet ℝ) [0, 1] (Or.inl hreach) (by decide)⟩

end ForwardLayers

section NewValues

variable {α : Type} [LinearOrderedField α]

end NewValues

/-! ## The backward pass: the weights -/

section BackwardWeights

variable {α : Type} [Field α]

/-- Every cell a completed `BackPropagate` writes, in terms of the deltas `od` and
`hd` it computes and of the state it was given. -/
theorem BackPropagate_cells (nn : NeuralNetwork α) (targets : List α)
    (lRate mFactor : α) (hlen : (targets.length : Int) = nn.no)
    (r : NeuralNetwork α × α) (hr : BackPropagate nn targets lRate mFactor = some r) :
    ∃ od hd, outputDeltas nn targets = some od ∧ hiddenDeltas nn od = some hd ∧
      (∀ h o, h < nn.nh.toNat → o < nn.no.toNat → ∃ d a w0 c0, od[o]? = some d ∧
        nn.ah[h]? = some a ∧ getAt nn.wo h o = some w0 ∧ getAt nn.co h o = some c0 ∧
        getAt r.1.wo h o = some (w0 + lRate * (d * a) + mFactor * c0) ∧
        getAt r.1.co h o = some (d * a)) ∧
      (∀ i h, i < nn.ni.toNat → h < nn.nh.toNat → ∃ d a w0 c0, hd[h]? = some d ∧
        nn.ai[i]? = some a ∧ getAt nn.wi i h = some w0 ∧ getAt nn.ci i h = some c0 ∧
        getAt r.1.wi i h = some (w0 + lRate * (d * a) + mFactor * c0) ∧
        getAt r.1.ci i h = some (d * a)) := by
  obtain ⟨od, hd, wo2, co2, wi2, ci2, e, hod, hhd, h1, h2, _, rfl⟩ :=
    BackPropagate_of_length_eq nn targets lRate mFactor hlen r hr
  obtain ⟨_, hcell1, _⟩ := updateWeights_some _ _ _ _ _ _ _ _ _ _ h1
  obtain ⟨_, hcell2, _⟩ := updateWeights_some _ _ _ _ _ _ _ _ _ _ h2
  exact ⟨od, hd, hod, hhd, hcell1, hcell2⟩

/-- The hidden-to-output cell `(h, o)` after a completed `BackPropagate`, with the
output delta spelled out. -/
theorem BackPropagate_wo_cell (nn : NeuralNetwork α) (targets : List α)
    (lRate mFactor : α) (hlen : (targets.length : Int) = nn.no)
    (r : NeuralNetwork α × α) (hr : BackPropagate nn targets lRate mFactor = some r)
    (h o : Nat) (hh : h < nn.nh.toNat) (ho : o < nn.no.toNat) :
    ∃ w0 c0 a t out, getAt nn.wo h o = some w0 ∧ getAt nn.co h o = some c0 ∧
      nn.ah[h]? = some a ∧ targets[o]? = some t ∧ nn.ao[o]? = some out ∧
      getAt r.1.wo h o = some (w0 +
        lRate * ((if nn.regression then t - out else out * (1 - out) * (t - out)) * a) +
        mFactor * c0) ∧
      getAt r.1.co h o =
        some ((if nn.regression then t - out else out * (1 - out) * (t - out)) * a) := by
  obtain ⟨od, hd, hod, _, hcell, _⟩ :=
    BackPropagate_cells nn targets lRate mFactor hlen r hr
  obtain ⟨d, a, w0, c0, e1, e2, e3, e4, e5, e6⟩ := hcell h o hh ho
  obtain ⟨_, _, hval⟩ := outputDeltas_some nn targets od hod
  obtain ⟨t, out, f1, f2, f3⟩ := hval o ho
  have hd2 : d = if nn.regression then t - out else out * (1 - out) * (t - out) := by
    have := Option.some.inj (e1.symm.trans f3)
    rw [this]
    rfl
  subst hd2
  exact ⟨w0, c0, a, t, out, e3, e4, e2, f1, f2, e5, e6⟩

end BackwardWeights

section BackwardWeightClaims

variable {α : Type} [Field α]

/-- C16: on every shape-consistent state and every target of length `no`,
`BackPropagate` completes and sets each `wo[h][o]` to its old value
`+ lRate * change + mFactor * (old co[h][o])`, where `change = delta_o * ah[h]` and
`delta_o` is `t_o - out_o` in regression mode and `out_o * (1 - out_o) * (t_o - out_o)`
otherwise. A second call right after, on any target of length `no`, completes and
adds `l2 * change2 + m2 * change` to that value: its momentum term is `m2` times the
change of the first call. -/
theorem BackPropagate_sets_output_weights (nn : NeuralNetwork α) (hws : WellShaped nn)
    (targets : List α) (lRate mFactor : α) (hlen : (targets.length : Int) = nn.no) :
    ∃ r, BackPropagate nn targets lRate mFactor = some r ∧
      (∀ targets2 l2 m2, ∃ r2, BackPropagate r.1 targets2 l2 m2 = some r2) ∧
      ∀ h o, h < nn.nh.toNat → o < nn.no.toNat →
        ∃ w0 c0 a t out, getAt nn.wo h o = some w0 ∧ getAt nn.co h o = some c0 ∧
          nn.ah[h]? = some a ∧ targets[o]? = some t ∧ nn.ao[o]? = some out ∧
          getAt r.1.wo h o = some (w0 +
            lRate * ((if nn.regression then t - out
              else out * (1 - out) * (t - out)) * a) +
            mFactor * c0) ∧
          ∀ (targets2 : List α) (l2 m2 : α) (r2 : NeuralNetwork α × α),
            (targets2.length : Int) = nn.no →
            BackPropagate r.1 targets2 l2 m2 = some r2 →
            ∃ t2, targets2[o]? = some t2 ∧
              getAt r2.1.wo h o = some ((w0 +
                lRate * ((if nn.regression then t - out
                  else out * (1 - out) * (t - out)) * a) +
                mFactor * c0) +
                l2 * ((if nn.regression then t2 - out
                  else out * (1 - out) * (t2 - out)) * a) +
                m2 * ((if nn.regression then t - out
                  else out * (1 - out) * (t - out)) * a)) := by
  obtain ⟨r, hr⟩ := BackPropagate_total nn targets lRate mFactor hws
  have hws2 := BackPropagate_wellShaped nn targets lRate mFactor r hr hws
  obtain ⟨⟨_, f2, f3, f4⟩, _, f6, f7⟩ := BackPropagate_frame nn targets lRate mFactor r hr
  refine ⟨r, hr, fun t2 l2 m2 => BackPropagate_total r.1 t2 l2 m2 hws2, ?_⟩
  intro h o hh ho
  obtain ⟨w0, c0, a, t, out, e1, e2, e3, e4, e5, e6, e7⟩ :=
    BackPropagate_wo_cell nn targets lRate mFactor hlen r hr h o hh ho
  refine ⟨w0, c0, a, t, out, e1, e2, e3, e4, e5, e6, ?_⟩
  intro targets2 l2 m2 r2 hlen2 hr2
  obtain ⟨w1, c1, a1, t2, out1, g1, g2, g3, g4, g5, g6, _⟩ :=
    BackPropagate_wo_cell r.1 targets2 l2 m2 (by rw [f3]; exact hlen2) r2 hr2 h o
      (by rw [f2]; exact hh) (by rw [f3]; exact ho)
  rw [f6] at g3
  rw [f7] at g5
  rw [f4] at g6
  have ha : a1 = a := Option.some.inj (g3.symm.trans e3)
  have hout : out1 = out := Option.some.inj (g5.symm.trans e5)
  have hw : w1 = _ := Option.some.inj (g1.symm.trans e6)
  have hc : c1 = _ := Option.some.inj (g2.symm.trans e7)
  subst ha hout
  rw [hw, hc] at g6
  exact ⟨t2, g4, g6⟩

/-- Witness of C16: `exampleNet` with the target `[0]`. -/
theorem BackPropagate_sets_output_weights_witness :
    ∃ r, BackPropagate (exampleNet ℝ) [0] (1 / 2) (1 / 10) = some r ∧
      ∀ h o, h < 3 → o < 1 →
        ∃ w0 c0 a t out, getAt (exampleNet ℝ).wo h o = some w0 ∧
          getAt (exampleNet ℝ).co h o = some c0 ∧
          (exampleNet ℝ).ah[h]? = some a ∧ ([0] : List ℝ)[o]? = some t ∧
          (exampleNet ℝ).ao[o]? = some out ∧
          getAt r.1.wo h o =
            some (w0 + (1 / 2) * ((out * (1 - out) * (t - out)) * a) + (1 / 10) * c0) := by
  obtain ⟨r, hr, _, hcell⟩ :=
    BackPropagate_sets_output_weights (exampleNet ℝ) (by decide) [0] (1 / 2) (1 / 10)
      (by decide)
  refine ⟨r, hr, ?_⟩
  intro h o hh ho
  obtain ⟨w0, c0, a, t, out, e1, e2, e3, e4, e5, e6, _⟩ := hcell h o hh ho
  exact ⟨w0, c0, a, t, out, e1, e2, e3, e4, e5, e6⟩

/-- C17: on every shape-consistent state and every target of length `no`,
`BackPropagate` completes and sets each `wi[i][h]` to its old value
`+ lRate * delta_h * ai[i] + mFactor * (old ci[i][h])`, where
`delta_h = ah[h] * (1 - ah[h]) * Σ_o delta_o * wo[h][o]`, the sum being over the `no`
outputs, `delta_o` the output delta of C16 and `wo` the matrix of the state the call
was given, before the call writes it. -/
theorem BackPropagate_sets_input_weights (nn : NeuralNetwork α) (hws : WellShaped nn)
    (targets : List α) (lRate mFactor : α) (hlen : (targets.length : Int) = nn.no) :
    ∃ r, BackPropagate nn targets lRate mFactor = some r ∧
      ∀ i h, i < nn.ni.toNat → h < nn.nh.toNat →
        ∃ w0 c0 x a, getAt nn.wi i h = some w0 ∧ getAt nn.ci i h = some c0 ∧
          nn.ai[i]? = some x ∧ nn.ah[h]? = some a ∧
          getAt r.1.wi i h = some (w0 +
            lRate * (a * (1 - a) *
              (∑ o ∈ Finset.range nn.no.toNat,
                (if nn.regression then (targets[o]?).getD 0 - (nn.ao[o]?).getD 0
                  else (nn.ao[o]?).getD 0 * (1 - (nn.ao[o]?).getD 0) *
                    ((targets[o]?).getD 0 - (nn.ao[o]?).getD 0)) *
                (getAt nn.wo h o).getD 0) * x) +
            mFactor * c0) := by
  obtain ⟨r, hr⟩ := BackPropagate_total nn targets lRate mFactor hws
  refine ⟨r, hr, ?_⟩
  obtain ⟨od, hd, hod, hhd, _, hcell⟩ :=
    BackPropagate_cells nn targets lRate mFactor hlen r hr
  obtain ⟨_, _, hodv⟩ := outputDeltas_some nn targets od hod
  obtain ⟨_, _, hhdv⟩ := hiddenDeltas_some nn od hd hhd
  intro i h hi hh
  obtain ⟨d, x, w0, c0, e1, e2, e3, e4, e5, _⟩ := hcell i h hi hh
  obtain ⟨a, ha, hval⟩ := hhdv h hh
  refine ⟨w0, c0, x, a, e3, e4, e2, ha, ?_⟩
  have hd2 : d = a * (1 - a) *
      ∑ o ∈ Finset.range nn.no.toNat,
        (if nn.regression then (targets[o]?).getD 0 - (nn.ao[o]?).getD 0
          else (nn.ao[o]?).getD 0 * (1 - (nn.ao[o]?).getD 0) *
            ((targets[o]?).getD 0 - (nn.ao[o]?).getD 0)) *
        (getAt nn.wo h o).getD 0 := by
    rw [Option.some.inj (e1.symm.trans hval)]
    unfold dsigmoid
    congr 1
    apply Finset.sum_congr rfl
    intro o ho
    obtain ⟨t, out, f1, f2, f3⟩ := hodv o (Finset.mem_range.mp ho)
    rw [f1, f2, f3]
    rfl
  rw [e5, hd2]

/-- Witness of C17: `exampleNet` with the target `[0]`. -/
theorem BackPropagate_sets_input_weights_witness :
    ∃ r, BackPropagate (exampleNet ℝ) [0] (1 / 2) (1 / 10) = some r ∧
      ∀ i h, i < 3 → h < 3 →
        ∃ w0 c0 x a, getAt (exampleNet ℝ).wi i h = some w0 ∧
          getAt (exampleNet ℝ).ci i h = some c0 ∧
          (exampleNet ℝ).ai[i]? = some x ∧ (exampleNet ℝ).ah[h]? = some a ∧
          getAt r.1.wi i h = some (w0 +
            (1 / 2) * (a * (1 - a) *
              (∑ o ∈ Finset.range 1,
                (((exampleNet ℝ).ao[o]?).getD 0 * (1 - ((exampleNet ℝ).ao[o]?).getD 0) *
                    ((([0] : List ℝ)[o]?).getD 0 - ((exampleNet ℝ).ao[o]?).getD 0)) *
                (getAt (exampleNet ℝ).wo h o).getD 0) * x) +
            (1 / 10) * c0) :=
  BackPropagate_sets_input_weights (exampleNet ℝ) (by decide) [0] (1 / 2) (1 / 10)
    (by decide)

end BackwardWeightClaims

/-! ## The weights feeding the hidden bias slot -/

section HiddenBias

variable {α : Type} [Field α]

theorem getAt_replicate {β : Type} (I J : Nat) (v : β) {i j : Nat} (hi : i < I)
    (hj : j < J) : getAt (List.replicate I (List.replicate J v)) i j = some v := by
  unfold getAt
  rw [List.getElem?_replicate, if_pos hi, Option.some_bind, List.getElem?_replicate,
    if_pos hj]

/-- Through every sequence of calls on a network built by `New`, the column of `wi`
that feeds the hidden bias slot is the one `New` left and the same column of `ci` is
zero. -/
theorem hidden_bias_column (exp : α → α) (draws : Nat → α) (ni nh no : Int)
    (regression : Bool) (nn0 nn : NeuralNetwork α)
    (hni : 0 ≤ ni ∧ ni < 2 ^ 63) (hnh : 0 ≤ nh ∧ nh < 2 ^ 63)
    (hno : 0 ≤ no ∧ no < 2 ^ 63)
    (hnew : New draws ni nh no regression = some nn0) (hsteps : Steps exp nn0 nn) :
    ∀ i, i < (ni + 1).toNat →
      getAt nn.wi i nh.toNat = getAt nn0.wi i nh.toNat ∧
      getAt nn.ci i nh.toNat = some 0 := by
  have key := Steps_inv exp
    (fun s => Steps exp nn0 s ∧ ∀ i, i < (ni + 1).toNat →
      getAt s.wi i nh.toNat = getAt nn0.wi i nh.toNat ∧ getAt s.ci i nh.toNat = some 0)
    ?_ ?_ nn0 nn hsteps ?_
  · exact key.2
  · intro s inputs r hP hr
    obtain ⟨hs, hcells⟩ := hP
    obtain ⟨_, e1, _, e3, _⟩ := Update_frame exp s inputs r hr
    refine ⟨Steps.update nn0 s inputs r hs hr, ?_⟩
    rw [e1, e3]
    exact hcells
  · intro s targets l m r hP hr
    obtain ⟨hs, hcells⟩ := hP
    refine ⟨Steps.backPropagate nn0 s targets l m r hs hr, ?_⟩
    by_cases hlen : (targets.length : Int) = s.no
    · obtain ⟨⟨a1, a2, _, _⟩, _, _, hbias⟩ :=
        built_invariant exp draws ni nh no regression nn0 s hni hnh hno hnew hs
      obtain ⟨od, hd, _, hhd, _, hcell⟩ := BackPropagate_cells s targets l m hlen r hr
      obtain ⟨_, _, hhdv⟩ := hiddenDeltas_some s od hd hhd
      intro i hi
      obtain ⟨d, x, w0, c0, f1, _, f3, f4, f5, f6⟩ :=
        hcell i nh.toNat (by rw [a1]; exact hi) (by rw [a2]; omega)
      obtain ⟨a, ha, hval⟩ := hhdv nh.toNat (by rw [a2]; omega)
      have ha1 : a = 1 := Option.some.inj (ha.symm.trans hbias)
      have hd0 : d = 0 := by
        rw [Option.some.inj (f1.symm.trans hval), ha1]
        simp [dsigmoid]
      have hc0 : c0 = 0 := Option.some.inj (f4.symm.trans (hcells i hi).2)
      rw [f5, f6, hd0, hc0, ← (hcells i hi).1, f3]
      simp
    · rw [BackPropagate_of_length_ne s targets l m hlen] at hr
      cases hr
      exact hcells
  · refine ⟨Steps.refl nn0, ?_⟩
    intro i hi
    obtain ⟨_, _, _, ⟨hci, _⟩, _⟩ := New_some draws ni nh no regression nn0 hni hnh hnew
    rw [hci]
    exact ⟨rfl, getAt_replicate _ _ _ hi (by omega)⟩

/-- C18: on every network built by `New` from counts that are non-negative values of
a Go `int`, after every finite sequence of completed `Update`, `BackPropagate`,
`Train` (and `Test`) calls, over exact arithmetic, every weight `wi[i][hiddenCount]`
feeding the hidden bias slot still holds the value `random(-1, 1)` that `New` gave it,
and every `ci[i][hiddenCount]` is `0`. -/
theorem hidden_bias_weights_never_change (exp : α → α) (draws : Nat → α)
    (ni nh no : Int) (regression : Bool) (nn0 nn : NeuralNetwork α)
    (hni : 0 ≤ ni ∧ ni < 2 ^ 63) (hnh : 0 ≤ nh ∧ nh < 2 ^ 63)
    (hno : 0 ≤ no ∧ no < 2 ^ 63)
    (hnew : New draws ni nh no regression = some nn0) (hsteps : Steps exp nn0 nn) :
    ∀ i, i < (ni + 1).toNat →
      getAt nn.wi i nh.toNat = getAt nn0.wi i nh.toNat ∧
      getAt nn.wi i nh.toNat =
        some (random (-1) 1 (draws (i * (nh + 1).toNat + nh.toNat))) ∧
      getAt nn.ci i nh.toNat = some 0 := by
  intro i hi
  obtain ⟨h1, h2⟩ :=
    hidden_bias_column exp draws ni nh no regression nn0 nn hni hnh hno hnew hsteps i hi
  obtain ⟨_, _, _, _, _, hwi, _⟩ := New_some draws ni nh no regression nn0 hni hnh hnew
  exact ⟨h1, by rw [h1]; exact hwi i nh.toNat hi (by omega), h2⟩

/-- Witness of C18: `exampleNet`, built by `New(2, 2, 1, false)`, after an `Update`
and a `BackPropagate`. -/
theorem hidden_bias_weights_never_change_witness :
    ∃ r r2, Update Real.exp (exampleNet ℝ) [0, 1] = some r ∧
      BackPropagate r.1 [1] (1 / 2) (1 / 10) = some r2 ∧
      ∀ i, i < 3 → getAt r2.1.wi i 2 = getAt (exampleNet ℝ).wi i 2 ∧
        getAt r2.1.ci i 2 = some 0 := by
  obtain ⟨r, hr⟩ := Update_total Real.exp (exampleNet ℝ) [0, 1] (by decide)
  obtain ⟨r2, hr2⟩ := BackPropagate_total r.1 [1] (1 / 2) (1 / 10)
    (Update_wellShaped Real.exp (exampleNet ℝ) [0, 1] r hr (by decide))
  refine ⟨r, r2, hr, hr2, ?_⟩
  intro i hi
  obtain ⟨h1, _, h3⟩ :=
    hidden_bias_weights_never_change Real.exp (fun _ => 1 / 2) 2 2 1 false (exampleNet ℝ)
      r2.1 (by decide) (by decide) (by decide) New_exampleNet
      (Steps.backPropagate _ _ [1] (1 / 2) (1 / 10) r2
        (Steps.update _ _ [0, 1] r (Steps.refl _) hr) hr2) i hi
  exact ⟨h1, h3⟩

end HiddenBias

/-! ## The training loop: mismatched inputs and splitting -/

section TrainAlgebra

variable {α : Type} [Field α]

/-- One iteration over a single example whose input has the wrong length is the
backward pass on the target, from the state given. -/
theorem Train_one_mismatched (exp : α → α) (nn : NeuralNetwork α)
    (input target : List α) (lRate mFactor : α)
    (hin : (input.length : Int) ≠ wrapInt (nn.ni - 1)) :
    Train exp nn [[input, target]] 1 lRate mFactor =
      (BackPropagate nn target lRate mFactor).bind fun r => some (r.1, [r.2]) := by
  rw [Train_eq_specTrain exp nn _ 1 lRate mFactor (by decide)]
  show specTrain exp lRate mFactor [[input, target]] (0 + 1) nn = _
  rw [specTrain_succ]
  show (specEpoch exp lRate mFactor nn [[input, target]]).bind _ = _
  rw [specEpoch_cons]
  show ((Update exp nn input).bind _).bind _ = _
  rw [Update_of_length_ne exp nn input hin, Option.some_bind]
  show (((BackPropagate nn target lRate mFactor).bind fun r2 =>
      (specEpoch exp lRate mFactor r2.1 []).bind fun r3 =>
        some (r3.1, r2.2 :: r3.2)).bind fun r2 => some (r2.1, [] ++ [r2.2.sum])) = _
  cases BackPropagate nn target lRate mFactor with
  | none => rfl
  | some r =>
    simp [specEpoch]

/-- C19: for every state and every single example whose input length differs from
`inputCount = ni - 1`, one `Train` iteration over that example is the call of
`BackPropagate` on its target from the starting state: same state left (or same panic)
and the error returned as the only value. With a target of length `no` on a
shape-consistent state the call completes and the weights and momentum are those
`BackPropagate` computes from the activations the state already held. -/
theorem Train_does_not_skip_mismatched_input (exp : α → α) (nn : NeuralNetwork α)
    (input target : List α) (lRate mFactor : α)
    (hin : (input.length : Int) ≠ wrapInt (nn.ni - 1))
    (htg : (target.length : Int) = nn.no) :
    Train exp nn [[input, target]] 1 lRate mFactor =
      (BackPropagate nn target lRate mFactor).bind (fun r => some (r.1, [r.2])) ∧
    (WellShaped nn → ∃ r, BackPropagate nn target lRate mFactor = some r ∧
      Train exp nn [[input, target]] 1 lRate mFactor = some (r.1, [r.2]) ∧
      r.2 = (1 / 2) * ∑ i ∈ Finset.range target.length,
        ((target[i]?).getD 0 - (nn.ao[i]?).getD 0) ^ 2) := by
  have h := Train_one_mismatched exp nn input target lRate mFactor hin
  refine ⟨h, ?_⟩
  intro hws
  obtain ⟨r, hr⟩ := BackPropagate_total nn target lRate mFactor hws
  refine ⟨r, hr, by rw [h, hr]; rfl, ?_⟩
  obtain ⟨_, _, _, _, _, _, e, _, _, _, _, he, rfl⟩ :=
    BackPropagate_of_length_eq nn target lRate mFactor htg r hr
  exact (sumSquaredError_some target nn.ao e he).2

/-- Witness of C19: `exampleNet`, which expects 2 inputs, with the example
`([1], [0])`. -/
theorem Train_does_not_skip_mismatched_input_witness :
    ∃ r, BackPropagate (exampleNet ℝ) [0] (1 / 2) (1 / 10) = some r ∧
      Train Real.exp (exampleNet ℝ) [[[1], [0]]] 1 (1 / 2) (1 / 10) = some (r.1, [r.2]) := by
  obtain ⟨r, h1, h2, _⟩ :=
    (Train_does_not_skip_mismatched_input Real.exp (exampleNet ℝ) [1] [0] (1 / 2) (1 / 10)
      (by decide) (by decide)).2 (by decide)
  exact ⟨r, h1, h2⟩

/-- The specification loop for `n + m` iterations is `n` iterations followed by `m`
iterations from the state left. -/
theorem specTrain_add (exp : α → α) (lRate mFactor : α)
    (patterns : List (List (List α))) (nn : NeuralNetwork α) (n : Nat) :
    ∀ m, specTrain exp lRate mFactor patterns (n + m) nn =
      (specTrain exp lRate mFactor patterns n nn).bind fun r1 =>
      (specTrain exp lRate mFactor patterns m r1.1).bind fun r2 =>
        some (r2.1, r1.2 ++ r2.2) := by
  intro m
  induction m with
  | zero =>
    show specTrain exp lRate mFactor patterns n nn = _
    cases specTrain exp lRate mFactor patterns n nn with
    | none => rfl
    | some r1 => simp [specTrain]
  | succ k ih =>
    show specTrain exp lRate mFactor patterns (n + k + 1) nn = _
    rw [specTrain_succ, ih]
    cases specTrain exp lRate mFactor patterns n nn with
    | none => rfl
    | some r1 =>
      simp only [Option.some_bind, specTrain_succ]
      cases specTrain exp lRate mFactor patterns k r1.1 with
      | none => rfl
      | some r2 =>
        simp only [Option.some_bind]
        cases specEpoch exp lRate mFactor r2.1 patterns with
        | none => rfl
        | some r3 => simp

/-- C20: for all iteration counts `N, M ≥ 0`, `Train` for `N + M` iterations is
`Train` for `N` iterations followed by `Train` for `M` iterations on the state the
first run left: the errors returned are the concatenation of the errors of the two
runs, the final state is that of the second run, and either side panics exactly when
the other does. -/
theorem Train_splits (exp : α → α) (nn : NeuralNetwork α)
    (patterns : List (List (List α))) (N M : Int) (lRate mFactor : α)
    (hN : 0 ≤ N) (hM : 0 ≤ M) :
    Train exp nn patterns (N + M) lRate mFactor =
      (Train exp nn patterns N lRate mFactor).bind fun r1 =>
      (Train exp r1.1 patterns M lRate mFactor).bind fun r2 =>
        some (r2.1, r1.2 ++ r2.2) := by
  rw [Train_eq_specTrain exp nn patterns (N + M) lRate mFactor (by omega),
    Train_eq_specTrain exp nn patterns N lRate mFactor hN, Int.toNat_add hN hM,
    specTrain_add]
  cases specTrain exp lRate mFactor patterns N.toNat nn with
  | none => rfl
  | some r1 =>
    simp only [Option.some_bind]
    rw [Train_eq_specTrain exp r1.1 patterns M lRate mFactor hM]

/-- Witness of C20: `2 + 1` iterations over two examples from `exampleNet`. -/
theorem Train_splits_witness :
    Train Real.exp (exampleNet ℝ) [[[0, 1], [1]], [[1, 1], [0]]] (2 + 1) (1 / 2) (1 / 10) =
      (Train Real.exp (exampleNet ℝ) [[[0, 1], [1]], [[1, 1], [0]]] 2 (1 / 2)
        (1 / 10)).bind fun r1 =>
      (Train Real.exp r1.1 [[[0, 1], [1]], [[1, 1], [0]]] 1 (1 / 2) (1 / 10)).bind fun r2 =>
        some (r2.1, r1.2 ++ r2.2) :=
  Train_splits Real.exp (exampleNet ℝ) [[[0, 1], [1]], [[1, 1], [0]]] 2 1 (1 / 2) (1 / 10)
    (by decide) (by decide)

end TrainAlgebra

end Gobrain
